import Mathlib

/-! A shallow embedding of `scel-reader.go` (scel-reader).

The program converts a Sogou "cell dictionary" (`.scel`) into a text file.  The
embedding follows the Go source function by function.

* A byte is a `Fin 256`; a file is the list of its bytes.
* An open `*os.File` is represented by the bytes between the current file offset
  and the end of the file (`scel : List Byte`).  `Seek(off, 0)` on a file with
  contents `data` therefore yields `data.drop off`; on a regular file it does not
  fail for the non-negative offsets the program uses.
* Go strings hold valid UTF-8 in this program (they are string literals or come
  out of the UTF-16 decoder), so a Go string is a Lean `String` and
  `len([]rune(s))` is `s.length`.
* `binary.Read` leaves its destination untouched when it fails; the callers
  discard most errors, which is kept as it is.
* `trans` writes every record straight into `withSuffix(file, ".txt")`, which it opens
  without `O_TRUNC`.  When that path is not the input path, the input keeps its
  contents while it is read.  When it is the input path, the two handles share one
  file (`Shared`): a write changes the bytes that later reads see.
-/

namespace Scel

/-! ## Bytes and `binary.Read` -/

abbrev Byte := Fin 256

/-- The two errors `io.ReadFull` reports on a short read. -/
inductive IOError where
  | EOF
  | ErrUnexpectedEOF
  deriving DecidableEq, Repr

/-- Little-endian value of a byte sequence (`binary.LittleEndian`). -/
def le : List Byte → Nat
  | [] => 0
  | b :: bs => b.val + 256 * le bs

/-- The call `io.ReadFull(scel, buf)` with `len(buf) = n`: the bytes read, or the error, and
the file afterwards.  A request for zero bytes succeeds without touching the file;
a short read consumes what is left. -/
def readFull (n : Nat) (scel : List Byte) : Except IOError (List Byte) × List Byte :=
  if n = 0 then (.ok [], scel)
  else if (scel.take n).length = n then (.ok (scel.take n), scel.drop n)
  else (.error (if scel.isEmpty then .EOF else .ErrUnexpectedEOF), [])

/-- The call `read(scel, le, &x)` for an unsigned integer `x` of `size` bytes. -/
def read (size : Nat) (scel : List Byte) : Except IOError Nat × List Byte :=
  match readFull size scel with
  | (.ok bs, scel) => (.ok (le bs), scel)
  | (.error e, scel) => (.error e, scel)

/-- Conversion of a 32-bit pattern to `int32`. -/
def toInt32 (u : Nat) : Int :=
  if u % 2 ^ 32 < 2 ^ 31 then (u % 2 ^ 32 : Nat) else (u % 2 ^ 32 : Nat) - 2 ^ 32

/-- The call `read(scel, le, &x)` for `x : int32`. -/
def readInt32 (scel : List Byte) : Except IOError Int × List Byte :=
  match read 4 scel with
  | (.ok u, scel) => (.ok (toInt32 u), scel)
  | (.error e, scel) => (.error e, scel)

/-- Splits a byte sequence into little-endian 16-bit values. -/
def u16s : List Byte → List Nat
  | a :: b :: rest => (a.val + 256 * b.val) :: u16s rest
  | _ => []

/-- The call `read(scel, le, pys)` for `pys : []uint16` of length `n`, initially all zero. -/
def readU16s (n : Nat) (scel : List Byte) : Except IOError Unit × List Nat × List Byte :=
  match readFull (2 * n) scel with
  | (.ok bs, scel) => (.ok (), u16s bs, scel)
  | (.error e, scel) => (.error e, List.replicate n 0, scel)

/-- The call `read(scel, le, data)` for `data : []byte` of length `n`, initially all zero. -/
def readBytes (n : Nat) (scel : List Byte) : Except IOError Unit × List Byte × List Byte :=
  match readFull n scel with
  | (.ok bs, scel) => (.ok (), bs, scel)
  | (.error e, scel) => (.error e, List.replicate n 0, scel)

/-- The value a variable holds after `_ = read(.., &x)`: the value read, or the one
it had before when the read failed. -/
def assigned {α : Type} (r : Except IOError α) (old : α) : α :=
  match r with
  | .ok v => v
  | .error _ => old

/-- The `error` result of a read (`nil` is `none`). -/
def errOf {α : Type} (r : Except IOError α) : Option IOError :=
  match r with
  | .ok _ => none
  | .error e => some e

/-! ## The UTF-16LE decoder (`unicode.All[3].NewDecoder`) -/

/-- The rune U+FFFD, the replacement character. -/
def replacementChar : Char := Char.ofNat 0xFFFD

/-- The function `utf16.DecodeRune(r1, r2)`. -/
def decodeRune (r1 r2 : Nat) : Char :=
  if 0xD800 ≤ r1 ∧ r1 < 0xDC00 ∧ 0xDC00 ≤ r2 ∧ r2 < 0xE000 then
    Char.ofNat ((r1 - 0xD800) * 0x400 + (r2 - 0xDC00) + 0x10000)
  else replacementChar

/-- The transformer of `golang.org/x/text/encoding/unicode` for UTF-16,
little-endian, byte-order mark ignored, run on a whole input: a code unit outside
the surrogate range is one rune; a surrogate followed by a unit in
`0xDC00..0xDFFF` consumes both and is `decodeRune` of the two; any other
surrogate, and a single trailing byte, become U+FFFD. -/
def decodeUTF16 : List Byte → List Char
  | [] => []
  | [_] => [replacementChar]
  | [a, b] =>
    let x := a.val + 256 * b.val
    if 0xD800 ≤ x ∧ x < 0xE000 then [replacementChar] else [Char.ofNat x]
  | [a, b, c] =>
    let x := a.val + 256 * b.val
    (if 0xD800 ≤ x ∧ x < 0xE000 then replacementChar else Char.ofNat x) :: decodeUTF16 [c]
  | a :: b :: c :: d :: rest =>
    let x := a.val + 256 * b.val
    if 0xD800 ≤ x ∧ x < 0xE000 then
      let y := c.val + 256 * d.val
      if 0xDC00 ≤ y ∧ y ≤ 0xDFFF then decodeRune x y :: decodeUTF16 rest
      else replacementChar :: decodeUTF16 (c :: d :: rest)
    else Char.ofNat x :: decodeUTF16 (c :: d :: rest)

/-- The call `decoder().Bytes(data)` followed by `string(data)`. -/
def decode (data : List Byte) : String :=
  String.mk (decodeUTF16 data)

/-! ## Strings -/

/-- The function `strings.Join(elems, sep)`. -/
def join : List String → String → String
  | [], _ => ""
  | [e], _ => e
  | e :: es, sep => es.foldl (fun b s => b ++ sep ++ s) e

/-- The function `trim(str)`: `strings.TrimRightFunc` with the predicate `r == 0`. -/
def trim (str : String) : String :=
  String.mk (str.data.rdropWhile fun r => r == Char.ofNat 0)

/-- A Go `map[uint16]string`. -/
abbrev Dict := Nat → Option String

/-- The empty map `map[uint16]string{}`. -/
def Dict.empty : Dict := fun _ => none

/-- The assignment `dict[idx] = py`. -/
def Dict.set (dict : Dict) (idx : Nat) (py : String) : Dict :=
  fun i => if i = idx then some py else dict i

/-- The expression `dict[idx]`: the zero value `""` for an absent key. -/
def Dict.at (dict : Dict) (idx : Nat) : String :=
  (dict idx).getD ""

/-- The function `pinyin(dict, indexes)`. -/
def pinyin (dict : Dict) (indexes : List Nat) : String :=
  join (indexes.map fun idx => dict.at idx) "'"

/-! ## Readers -/

/-- The function `bstr(f)`: the string, the error of the data read, and the file afterwards.
The error of the length read is discarded, so `l` stays 0 when it fails. -/
def bstr (f : List Byte) : String × Option IOError × List Byte :=
  let (r, f) := read 2 f
  let l := assigned r 0
  let (err, data, f) := readBytes l f
  (decode data, errOf err, f)

/-- The function `reads(f, offset, len)` on the file with contents `file`: the trimmed string
and the file afterwards. -/
def reads (file : List Byte) (offset len : Nat) : String × List Byte :=
  let f := file.drop offset
  let (_, data, f) := readBytes len f
  (trim (decode data), f)

/-- The function `pinyins(scel, dict)`: the reading, the expected hanzi length, and the file
afterwards. -/
def pinyins (scel : List Byte) (dict : Dict) : (String × Nat) × List Byte :=
  let (r, scel) := read 2 scel
  let pyc := assigned r 0
  let (_, pys, scel) := readU16s (pyc / 2) scel
  ((pinyin dict pys, pyc / 2), scel)

/-- The loop of `pinyindict`, `cnt` iterations from the map `pydict`. -/
def pinyindictLoop : Nat → Dict → List Byte → Dict × List Byte
  | 0, pydict, scel => (pydict, scel)
  | cnt + 1, pydict, scel =>
    let (r, scel) := read 2 scel
    let idx := assigned r 0
    let (py, _, scel) := bstr scel
    pinyindictLoop cnt (pydict.set idx py) scel

/-- The function `pinyindict(scel)`: `.error e` is the panic raised by `panice(err)`; otherwise
the map and the file afterwards.  The loop `for ; cnt > 0; cnt--` over an `int32`
runs `cnt.toNat` times. -/
def pinyindict (scel : List Byte) : Except IOError (Dict × List Byte) :=
  match readInt32 scel with
  | (.error e, _) => .error e
  | (.ok cnt, scel) => .ok (pinyindictLoop cnt.toNat Dict.empty scel)

/-! ## Paths -/

/-- The loop of `filepath.Ext`, which walks the path from its end: `rev` holds the
characters not yet visited, last first, and `acc` the ones already passed.  The walk
ends without an extension at a path separator and returns the rest of the path from
the first `.` it meets. -/
def extFrom : List Char → List Char → List Char
  | [], _ => []
  | c :: rev, acc =>
    if c = '/' then [] else if c = '.' then c :: acc else extFrom rev (c :: acc)

/-- The function `filepath.Ext(path)`, with `/` as the path separator. -/
def Ext (path : String) : String :=
  String.mk (extFrom path.data.reverse [])

/-- The function `strings.TrimSuffix(s, suffix)`. -/
def TrimSuffix (s suffix : String) : String :=
  if suffix.data.isSuffixOf s.data then
    String.mk (s.data.take (s.data.length - suffix.data.length))
  else s

/-- The function `withSuffix(fn, ext)`. -/
def withSuffix (fn ext : String) : String :=
  TrimSuffix fn (Ext fn) ++ ext

/-! ## Writing -/

/-- The function `utf8.EncodeRune` on a Unicode scalar value. -/
def encodeRune (c : Char) : List Byte :=
  let r := c.toNat
  if r < 0x80 then [Fin.ofNat r]
  else if r < 0x800 then [Fin.ofNat (0xC0 + r / 0x40), Fin.ofNat (0x80 + r % 0x40)]
  else if r < 0x10000 then
    [Fin.ofNat (0xE0 + r / 0x1000), Fin.ofNat (0x80 + r / 0x40 % 0x40),
      Fin.ofNat (0x80 + r % 0x40)]
  else
    [Fin.ofNat (0xF0 + r / 0x40000), Fin.ofNat (0x80 + r / 0x1000 % 0x40),
      Fin.ofNat (0x80 + r / 0x40 % 0x40), Fin.ofNat (0x80 + r % 0x40)]

/-- The bytes of a Go string: the UTF-8 encoding of its runes. -/
def utf8 (s : String) : List Byte :=
  s.data.flatMap encodeRune

/-- A write of the bytes `bs` at offset `off` of a file with contents `data`: the
bytes there are overwritten, the file grows when the write passes its end, and a gap
between the end and `off` is filled with zeros. -/
def writeAt (data : List Byte) (off : Nat) (bs : List Byte) : List Byte :=
  data.take off ++ List.replicate (off - data.length) 0 ++ bs ++ data.drop (off + bs.length)

/-! ## The converter -/

/-- The global `cel`. -/
structure Cel where
  hzr : Nat
  pinyinr : Nat
  wordc : Int
  ver : Nat
  name : String
  category : String
  desc : String
  samples : String
  dict : Dict

/-- The global `config`. -/
structure Config where
  input : String
  withPinYin : Bool

/-- One output record: the arguments `hz` and `pinyin` at the point where `trans`
writes a line. -/
structure Emit where
  hz : String
  pinyin : String
  deriving DecidableEq, Repr

/-- The text written for a record: `fmt.Fprintf(output, "%s\t%s\n", hz, pinyin)`
with the flag, `fmt.Fprintln(output, hz)` without. -/
def Emit.text (withPinYin : Bool) (e : Emit) : String :=
  if withPinYin then e.hz ++ "\t" ++ e.pinyin ++ "\n" else e.hz ++ "\n"

/-- The inner loop of `trans`, `for i := 0; i < int(wordsc); i++`, with `n`
iterations left: the records written, in order, and the file afterwards. -/
def entries (pinyin : String) (wordlen : Nat) : Nat → List Byte → List Emit × List Byte
  | 0, scel => ([], scel)
  | n + 1, scel =>
    let (hz, _, scel) := bstr scel
    if hz.length ≠ wordlen then ([], scel)
    else
      let (_, scel) := read 2 scel
      let (_, scel) := read 8 scel
      let (_, _, scel) := readBytes 2 scel
      let (es, scel) := entries pinyin wordlen n scel
      (⟨hz, pinyin⟩ :: es, scel)

/-- The body of the outer loop of `trans` (one word group): the records written,
the `err` of the read of `wordsc`, and the file afterwards. -/
def group (dict : Dict) (scel : List Byte) : List Emit × Option IOError × List Byte :=
  let (r, scel) := read 2 scel
  let err := errOf r
  let wordsc := assigned r 0
  let ((pinyin, wordlen), scel) := pinyins scel dict
  let (es, scel) := entries pinyin wordlen wordsc scel
  (es, err, scel)

/-- The outer loop of `trans`, `for wordc := cel.wordc; err == nil && wordc > 0;
wordc--`, with `wordc` ticks left: for every iteration run, the records it wrote;
the final `err`; and the file afterwards. -/
def groups (dict : Dict) : Nat → Option IOError → List Byte →
    List (List Emit) × Option IOError × List Byte
  | 0, err, scel => ([], err, scel)
  | wordc + 1, err, scel =>
    if err ≠ none then ([], err, scel)
    else
      let (es, err, scel) := group dict scel
      let (gs, err, scel) := groups dict wordc err scel
      (es :: gs, err, scel)

/-- What one call of `trans` does: `trace` holds the records written, grouped by
iteration of the outer loop; `out` is the text written to the output file;
`panicked` the panic recovered by `xrecover`, if there was one; `err` the variable
`err` when the outer loop was left; `cel` the global afterwards. -/
structure Result where
  trace : List (List Emit)
  out : String
  panicked : Option IOError
  err : Option IOError
  cel : Cel

/-- Lines 55 to 70 of `trans`: the header fields are read into the global `cel`. -/
def transHeader (cel : Cel) (data : List Byte) : Cel :=
  let cel := { cel with hzr := 0x2628 }
  let (r, scel) := read 4 data
  let cel := { cel with pinyinr := assigned r cel.pinyinr }
  let (r, _) := read 1 scel
  let cel := { cel with ver := assigned r cel.ver }
  let cel := if cel.ver = 0x45 then { cel with hzr := 0x26c4 } else cel
  let (r, _) := readInt32 (data.drop 0x124)
  let cel := { cel with wordc := assigned r cel.wordc }
  let cel := { cel with name := (reads data 0x130 0x200).1 }
  let cel := { cel with category := (reads data 0x338 0x200).1 }
  let cel := { cel with desc := (reads data 0x540 0x800).1 }
  { cel with samples := (reads data 0xd40 0x800).1 }

/-- The input file while `trans` has it open twice: `scel` reads it at offset `pos`
and `output` writes it at offset `wpos`.  This is the situation when the output path
`withSuffix(file, ".txt")` is the input path: `output` is opened without `O_TRUNC`,
so the contents stay as they are until the first write, and every write goes straight
to the file. -/
structure Shared where
  data : List Byte
  pos : Nat
  wpos : Nat

/-- The bytes `scel` has not read yet. -/
def Shared.scel (st : Shared) : List Byte :=
  st.data.drop st.pos

/-- The file after a read that left the bytes `scel` unread: the offset of the reading
handle has advanced by what was consumed. -/
def Shared.moved (st : Shared) (scel : List Byte) : Shared :=
  { st with pos := st.pos + (st.scel.length - scel.length) }

/-- The file after `output` wrote the string `s` (one `Write` per `fmt.Fprintf` or
`fmt.Fprintln`). -/
def Shared.write (st : Shared) (s : String) : Shared :=
  { st with data := writeAt st.data st.wpos (utf8 s), wpos := st.wpos + (utf8 s).length }

/-- The file after lines 89 to 96 of `trans`: three reads that take in the 12 bytes
after a hanzi string. -/
def Shared.skipTail (st : Shared) : Shared :=
  let (_, scel) := read 2 st.scel
  let st := st.moved scel
  let (_, scel) := read 8 st.scel
  let st := st.moved scel
  let (_, _, scel) := readBytes 2 st.scel
  st.moved scel

/-- The inner loop of `trans` when the output file is the input file: as `entries`,
and every record written changes the file that is being read. -/
def entriesShared (config : Config) (pinyin : String) (wordlen : Nat) :
    Nat → Shared → List Emit × Shared
  | 0, st => ([], st)
  | n + 1, st =>
    let (hz, _, scel) := bstr st.scel
    let st := st.moved scel
    if hz.length ≠ wordlen then ([], st)
    else
      let st := st.skipTail
      let st := st.write (Emit.text config.withPinYin ⟨hz, pinyin⟩)
      let (es, st) := entriesShared config pinyin wordlen n st
      (⟨hz, pinyin⟩ :: es, st)

/-- The body of the outer loop of `trans` when the output file is the input file. -/
def groupShared (config : Config) (dict : Dict) (st : Shared) :
    List Emit × Option IOError × Shared :=
  let (r, scel) := read 2 st.scel
  let st := st.moved scel
  let err := errOf r
  let wordsc := assigned r 0
  let ((pinyin, wordlen), scel) := pinyins st.scel dict
  let st := st.moved scel
  let (es, st) := entriesShared config pinyin wordlen wordsc st
  (es, err, st)

/-- The outer loop of `trans` when the output file is the input file. -/
def groupsShared (config : Config) (dict : Dict) : Nat → Option IOError → Shared →
    List (List Emit) × Option IOError × Shared
  | 0, err, st => ([], err, st)
  | wordc + 1, err, st =>
    if err ≠ none then ([], err, st)
    else
      let (es, err, st) := groupShared config dict st
      let (gs, err, st) := groupsShared config dict wordc err st
      (es :: gs, err, st)

/-- Lines 76 to 103 of `trans`: the seek to the hanzi table at `hzr` and the outer
loop with `wordc` ticks, on the input with contents `data`: for every iteration the
records it wrote, and the final `err`.  When the output file is another file than the
input (`shared` is false) the input stays as it is and the loop is `groups`; when it
is the input file itself, the loop is `groupsShared` with the writing handle at the
start of the file. -/
def wordList (config : Config) (dict : Dict) (wordc : Nat) (shared : Bool) (data : List Byte)
    (hzr : Nat) : List (List Emit) × Option IOError :=
  if shared then
    ((groupsShared config dict wordc none ⟨data, hzr, 0⟩).1,
      (groupsShared config dict wordc none ⟨data, hzr, 0⟩).2.1)
  else
    ((groups dict wordc none (data.drop hzr)).1, (groups dict wordc none (data.drop hzr)).2.1)

/-- The function `trans(file)` once its two files are open: `config` and `cel` are
the globals as the call finds them, `file` is the input path and `data` the contents
of the input.  The output path is `withSuffix(file, ".txt")`; it names the input file
itself exactly when the two paths are equal. -/
def trans (config : Config) (cel : Cel) (file : String) (data : List Byte) : Result :=
  let target := withSuffix file ".txt"
  let cel := transHeader cel data
  match pinyindict (data.drop cel.pinyinr) with
  | .error e => { trace := [], out := "", panicked := some e, err := none, cel := cel }
  | .ok (dict, _) =>
    let cel := { cel with dict := dict }
    let (gs, err) := wordList config cel.dict cel.wordc.toNat (decide (target = file)) data cel.hzr
    { trace := gs
      out := String.join (gs.flatten.map (Emit.text config.withPinYin))
      panicked := none
      err := err
      cel := cel }

/-! ## The container layout -/

/-- Little-endian encoding of `n` in `size` bytes. -/
def encLE : Nat → Nat → List Byte
  | 0, _ => []
  | size + 1, n => Fin.ofNat (n % 256) :: encLE size (n / 256)

/-- Little-endian two's-complement encoding of an `int32`. -/
def encInt32 (n : Int) : List Byte :=
  encLE 4 (n % 2 ^ 32).toNat

/-- A length-prefixed string: a 16-bit byte count and the bytes. -/
def encBstr (bs : List Byte) : List Byte :=
  encLE 2 bs.length ++ bs

/-- An entry of the pinyin table: the index and the UTF-16LE bytes of the syllable. -/
structure PinyinEntry where
  idx : Nat
  py : List Byte

/-- The bytes of a pinyin-table entry. -/
def PinyinEntry.bytes (e : PinyinEntry) : List Byte :=
  encLE 2 e.idx ++ encBstr e.py

/-- The fields of a pinyin-table entry fit their 16-bit representation. -/
def PinyinEntry.Sized (e : PinyinEntry) : Prop :=
  e.idx < 65536 ∧ e.py.length < 65536

instance (e : PinyinEntry) : Decidable e.Sized := by
  unfold PinyinEntry.Sized; infer_instance

/-- The map the pinyin table denotes: the last entry carrying an index wins. -/
def tableDict : List PinyinEntry → Dict
  | [] => Dict.empty
  | e :: es => fun i =>
    match tableDict es i with
    | some py => some py
    | none => if i = e.idx then some (decode e.py) else none

/-- The bytes of a pinyin table that declares `n` entries and holds `es`. -/
def tableBytes (n : Int) (es : List PinyinEntry) : List Byte :=
  encInt32 n ++ es.flatMap PinyinEntry.bytes

/-- A word entry: the UTF-16LE bytes of the hanzi string and the 12 bytes after it. -/
structure WordEntry where
  hanzi : List Byte
  tail : List Byte

/-- The bytes of a word entry. -/
def WordEntry.bytes (w : WordEntry) : List Byte :=
  encBstr w.hanzi ++ w.tail

/-- A word group: the pinyin indexes and the word entries. -/
structure WordGroup where
  indexes : List Nat
  words : List WordEntry

/-- The bytes of a word group up to its entries: entry count, byte count of the
index sequence, the indexes. -/
def WordGroup.head (g : WordGroup) : List Byte :=
  encLE 2 g.words.length ++ encLE 2 (2 * g.indexes.length) ++ g.indexes.flatMap (encLE 2)

/-- The bytes of a word group. -/
def WordGroup.bytes (g : WordGroup) : List Byte :=
  g.head ++ g.words.flatMap WordEntry.bytes

/-- The fields of a word group fit their representation: 16-bit counts, lengths and
indexes, 12 bytes after every hanzi string. -/
def WordGroup.Sized (g : WordGroup) : Prop :=
  g.words.length < 65536 ∧ 2 * g.indexes.length < 65536 ∧ (∀ i ∈ g.indexes, i < 65536) ∧
    ∀ w ∈ g.words, w.hanzi.length < 65536 ∧ w.tail.length = 12

/-- Every hanzi string of the group has as many characters as the group has
indexes. -/
def WordGroup.Matched (g : WordGroup) : Prop :=
  ∀ w ∈ g.words, (decode w.hanzi).length = g.indexes.length

instance (g : WordGroup) : Decidable g.Sized := by
  unfold WordGroup.Sized; infer_instance

instance (g : WordGroup) : Decidable g.Matched := by
  unfold WordGroup.Matched; infer_instance

/-- The records of a word group under the map `dict`. -/
def WordGroup.records (dict : Dict) (g : WordGroup) : List Emit :=
  g.words.map fun w => ⟨decode w.hanzi, pinyin dict g.indexes⟩

/-- The apostrophe, U+0027, the separator of a reading. -/
def apostrophe : Char := Char.ofNat 39

/-- A run of `n` zero bytes. -/
def zeros (n : Nat) : List Byte := List.replicate n 0

/-- A container file: the pinyin-table offset and the version byte at offsets 0 and
4, the word count at 0x124, the bytes `table` at offset `pinyinr`, the bytes
`words` at offset `hzr`, zeros everywhere else. -/
def container (pinyinr ver : Nat) (wordc : Int) (table : List Byte) (hzr : Nat)
    (words : List Byte) : List Byte :=
  (encLE 4 pinyinr ++ encLE 1 ver ++ zeros 287) ++
    ((encInt32 wordc ++ zeros (pinyinr - 0x128)) ++
      ((table ++ zeros (hzr - pinyinr - table.length)) ++ words))

/-- The pinyin table of the minimal fixture: index 1 is "ni". -/
def fixtureTable : List PinyinEntry := [⟨1, [0x6e, 0, 0x69, 0]⟩]

/-- The word group of the minimal fixture: index sequence `[1]`, one entry with the
hanzi U+4F60 and the weight 100. -/
def fixtureGroup : WordGroup :=
  ⟨[1], [⟨[0x60, 0x4f], [10, 0, 100, 0, 0, 0, 0, 0, 0, 0, 0, 0]⟩]⟩

/-- The minimal fixture: pinyin table at 0x1540, one word group at 0x2628. -/
def fixture : List Byte :=
  container 0x1540 0 1 (tableBytes 1 fixtureTable) 0x2628 fixtureGroup.bytes

/-- A pinyin table with two entries: index 1 is "ni", index 2 is "hao". -/
def twoTable : List PinyinEntry :=
  [⟨1, [0x6e, 0, 0x69, 0]⟩, ⟨2, [0x68, 0, 0x61, 0, 0x6f, 0]⟩]

/-- A word group with the index sequence `[1, 2]` and three entries: U+4F60 U+597D
(two characters), U+4F60 (one character, a mismatch), U+597D U+4F60. -/
def anomalousGroup : WordGroup :=
  ⟨[1, 2],
    [⟨[0x60, 0x4f, 0x7d, 0x59], [10, 0, 100, 0, 0, 0, 0, 0, 0, 0, 0, 0]⟩,
     ⟨[0x60, 0x4f], [10, 0, 100, 0, 0, 0, 0, 0, 0, 0, 0, 0]⟩,
     ⟨[0x7d, 0x59, 0x60, 0x4f], [10, 0, 100, 0, 0, 0, 0, 0, 0, 0, 0, 0]⟩]⟩

/-- A file with the table `twoTable` whose word list is `anomalousGroup` in full,
followed by the well-formed `fixtureGroup`; the word count is 2. -/
def anomalousFile : List Byte :=
  container 0x1540 0 2 (tableBytes 2 twoTable) 0x2628
    (anomalousGroup.bytes ++ fixtureGroup.bytes)

/-- The minimal fixture with the version byte 0x45: its word group is at 0x26c4. -/
def sentinelFixture : List Byte :=
  container 0x1540 0x45 1 (tableBytes 1 fixtureTable) 0x26c4 fixtureGroup.bytes

/-- The minimal fixture cut in the middle of its hanzi string: the file ends after
the first of the two bytes the length prefix announces. -/
def truncatedFile : List Byte :=
  container 0x1540 0 1 (tableBytes 1 fixtureTable) 0x2628 (fixtureGroup.bytes.take 9)

/-- A pinyin table in which index 1 occurs twice, first as "ni", then as "hao". -/
def dupTable : List PinyinEntry :=
  [⟨1, [0x6e, 0, 0x69, 0]⟩, ⟨1, [0x68, 0, 0x61, 0, 0x6f, 0]⟩]

/-- A pinyin table that declares two entries and ends after its first, 0 ↦ "a". -/
def truncatedTable : List Byte :=
  tableBytes 2 [⟨0, [0x61, 0]⟩]

/-- The content of a word group without the 12 bytes after each hanzi string: the
indexes and the hanzi strings. -/
def WordGroup.content (g : WordGroup) : List Nat × List (List Byte) :=
  (g.indexes, g.words.map fun w => w.hanzi)

/-- The file `data` is a well-formed container with the pinyin table `table` and the
word groups `gs`: the header holds the table offset, a version byte and the number of
groups; the table is at its offset; the groups are at the hanzi offset the version
byte selects; every field fits and every hanzi string has the expected length. -/
def Laid (data : List Byte) (table : List PinyinEntry) (gs : List WordGroup) : Prop :=
  ∃ (pinyinr ver : Nat) (t0 t1 t2 t3 : List Byte),
    pinyinr < 2 ^ 32 ∧ ver < 256 ∧
    data = encLE 4 pinyinr ++ (encLE 1 ver ++ t0) ∧
    data.drop 0x124 = encInt32 gs.length ++ t1 ∧ gs.length < 2 ^ 31 ∧
    data.drop pinyinr = tableBytes table.length table ++ t2 ∧ table.length < 2 ^ 31 ∧
    (∀ e ∈ table, e.Sized) ∧
    data.drop (if ver = 0x45 then 0x26c4 else 0x2628) = gs.flatMap WordGroup.bytes ++ t3 ∧
    (∀ g ∈ gs, g.Sized) ∧ (∀ g ∈ gs, g.Matched)

/-- The word group of the minimal fixture with other bytes after its hanzi string. -/
def fixtureGroupB : WordGroup :=
  ⟨[1], [⟨[0x60, 0x4f], [1, 2, 3, 4, 5, 6, 7, 8, 9, 10, 11, 12]⟩]⟩

/-- The group `anomalousGroup` with other bytes after the hanzi string of its entry 1:
they spell the start of a group with one entry, the index sequence `[1]` and the
hanzi U+4F60. -/
def craftedGroup : WordGroup :=
  ⟨[1, 2],
    [⟨[0x60, 0x4f, 0x7d, 0x59], [10, 0, 100, 0, 0, 0, 0, 0, 0, 0, 0, 0]⟩,
     ⟨[0x60, 0x4f], [1, 0, 2, 0, 1, 0, 2, 0, 0x60, 0x4f, 0, 0]⟩,
     ⟨[0x7d, 0x59, 0x60, 0x4f], [10, 0, 100, 0, 0, 0, 0, 0, 0, 0, 0, 0]⟩]⟩

/-- The file `anomalousFile` with `craftedGroup` in the place of `anomalousGroup`. -/
def craftedFile : List Byte :=
  container 0x1540 0 2 (tableBytes 2 twoTable) 0x2628
    (craftedGroup.bytes ++ fixtureGroup.bytes)

/-- The rune U+0000. -/
def nul : Char := Char.ofNat 0

/-- The directory part of a path: everything up to and including its last `/`. -/
def dirPart (path : String) : List Char :=
  path.data.rdropWhile fun c => c != '/'

/-- The UTF-16LE bytes of `n` letters `a`. -/
def aSyllable : Nat → List Byte
  | 0 => []
  | n + 1 => 0x61 :: 0 :: aSyllable n

/-- The string of `n` letters `a`. -/
def aChars : Nat → List Char
  | 0 => []
  | n + 1 => 'a' :: aChars n

/-- The UTF-8 bytes of `n` letters `a`. -/
def aRun : Nat → List Byte
  | 0 => []
  | n + 1 => 0x61 :: aRun n

/-- A pinyin table whose only syllable, at index 1, is 9790 letters `a` long. -/
def longTable : List PinyinEntry := [⟨1, aSyllable 9790⟩]

/-- A container file whose pinyin table follows its word groups: the version byte is
0, the bytes `words` are at 0x2628 and the bytes `table` right after them. -/
def lateTable (wordc : Int) (words table : List Byte) : List Byte :=
  (encLE 4 (0x2628 + words.length) ++ encLE 1 0 ++ zeros 287) ++
    ((encInt32 wordc ++ zeros (0x2628 - 0x128)) ++ (words ++ table))

/-- A well-formed container with two word groups, each the group of the minimal
fixture, and the table `longTable` after them: with the reading, a record of it takes
9795 bytes of text. -/
def selfFile : List Byte :=
  lateTable 2 (fixtureGroup.bytes ++ fixtureGroup.bytes) (tableBytes 1 longTable)

/-- A value of the global `cel` before the first conversion: the zero value. -/
def celZero : Cel :=
  { hzr := 0, pinyinr := 0, wordc := 0, ver := 0, name := "", category := "", desc := "",
    samples := "", dict := Dict.empty }

/-! ## Reading what the layout wrote -/

theorem length_encLE (size n : Nat) : (encLE size n).length = size := by
  induction size generalizing n with
  | zero => rfl
  | succ k ih => simp [encLE, ih]

theorem le_encLE (size n : Nat) : le (encLE size n) = n % 256 ^ size := by
  induction size generalizing n with
  | zero => simp [encLE, le, Nat.mod_one]
  | succ k ih =>
    simp only [encLE, le, ih, Fin.ofNat, Nat.reduceAdd]
    rw [Nat.mod_mod, pow_succ, Nat.mul_comm (256 ^ k) 256, Nat.mod_mul]

theorem readFull_of_le (n : Nat) (scel : List Byte) (h : n ≤ scel.length) :
    readFull n scel = (.ok (scel.take n), scel.drop n) := by
  unfold readFull
  by_cases h0 : n = 0
  · subst h0; simp
  · simp [h0, h]

theorem readFull_of_lt (n : Nat) (scel : List Byte) (h : scel.length < n) :
    readFull n scel = (.error (if scel.isEmpty then .EOF else .ErrUnexpectedEOF), []) := by
  unfold readFull
  have h0 : n ≠ 0 := by omega
  have h1 : ¬ n ≤ scel.length := by omega
  simp [h0, h1]

theorem readFull_append (bs rest : List Byte) :
    readFull bs.length (bs ++ rest) = (.ok bs, rest) := by
  rw [readFull_of_le _ _ (by simp)]
  simp

theorem readFull_of_length (n : Nat) (bs rest : List Byte) (h : bs.length = n) :
    readFull n (bs ++ rest) = (.ok bs, rest) := by
  subst h; exact readFull_append bs rest

theorem read_encLE (size n : Nat) (rest : List Byte) (h : n < 256 ^ size) :
    read size (encLE size n ++ rest) = (.ok n, rest) := by
  unfold read
  rw [readFull_of_length size _ _ (length_encLE size n)]
  simp [le_encLE, Nat.mod_eq_of_lt h]

theorem read2_encLE (n : Nat) (rest : List Byte) (h : n < 65536) :
    read 2 (encLE 2 n ++ rest) = (.ok n, rest) :=
  read_encLE 2 n rest (by simpa using h)

theorem readBytes_append (bs rest : List Byte) :
    readBytes bs.length (bs ++ rest) = (.ok (), bs, rest) := by
  simp [readBytes, readFull_append]

theorem bstr_encBstr (bs rest : List Byte) (h : bs.length < 65536) :
    bstr (encBstr bs ++ rest) = (decode bs, none, rest) := by
  simp [bstr, encBstr, List.append_assoc, read2_encLE _ _ h, assigned, readBytes_append, errOf]

theorem u16s_encLE_append (i : Nat) (rest : List Byte) (hi : i < 65536) :
    u16s (encLE 2 i ++ rest) = i :: u16s rest := by
  simp only [encLE, List.cons_append, List.nil_append, u16s, Fin.ofNat, Nat.reduceAdd,
    Nat.mod_mod]
  congr 1
  omega

theorem u16s_flatMap_encLE (idxs : List Nat) (h : ∀ i ∈ idxs, i < 65536) :
    u16s (idxs.flatMap (encLE 2)) = idxs := by
  induction idxs with
  | nil => rfl
  | cons i is ih =>
    have hi : i < 65536 := h i (by simp)
    have his : ∀ j ∈ is, j < 65536 := fun j hj => h j (by simp [hj])
    rw [List.flatMap_cons, u16s_encLE_append _ _ hi, ih his]

theorem length_flatMap_encLE (idxs : List Nat) :
    (idxs.flatMap (encLE 2)).length = 2 * idxs.length := by
  induction idxs with
  | nil => rfl
  | cons i is ih => simp [List.flatMap_cons, length_encLE, ih]; omega

theorem readU16s_flatMap (idxs : List Nat) (rest : List Byte) (h : ∀ i ∈ idxs, i < 65536) :
    readU16s idxs.length (idxs.flatMap (encLE 2) ++ rest) = (.ok (), idxs, rest) := by
  unfold readU16s
  rw [readFull_of_length _ _ _ (length_flatMap_encLE idxs)]
  simp [u16s_flatMap_encLE idxs h]

theorem pinyins_head (dict : Dict) (idxs : List Nat) (rest : List Byte)
    (hl : 2 * idxs.length < 65536) (h : ∀ i ∈ idxs, i < 65536) :
    pinyins (encLE 2 (2 * idxs.length) ++ idxs.flatMap (encLE 2) ++ rest) dict
      = ((pinyin dict idxs, idxs.length), rest) := by
  simp [pinyins, List.append_assoc, read2_encLE _ _ hl, assigned, readU16s_flatMap _ _ h]

theorem read_of_le (n : Nat) (scel : List Byte) (h : n ≤ scel.length) :
    read n scel = (.ok (le (scel.take n)), scel.drop n) := by
  simp [read, readFull_of_le n scel h]

theorem readBytes_of_le (n : Nat) (scel : List Byte) (h : n ≤ scel.length) :
    readBytes n scel = (.ok (), scel.take n, scel.drop n) := by
  simp [readBytes, readFull_of_le n scel h]

/-- The three reads after a hanzi string consume the 12 bytes that follow it. -/
theorem skip_tail (tail rest : List Byte) (ht : tail.length = 12) :
    (readBytes 2 (read 8 (read 2 (tail ++ rest)).2).2).2.2 = rest := by
  rw [read_of_le 2 _ (by simp [ht]; omega)]
  simp only
  rw [read_of_le 8 _ (by simp [ht]; omega)]
  simp only
  rw [readBytes_of_le 2 _ (by simp [ht]; omega)]
  simp only [List.drop_drop]
  have h12 : (2 + (8 + 2)) = tail.length := by omega
  rw [h12, List.drop_left]

theorem entries_zero (pinyin : String) (wordlen : Nat) (scel : List Byte) :
    entries pinyin wordlen 0 scel = ([], scel) := rfl

theorem entries_succ (pinyin : String) (wordlen n : Nat) (scel : List Byte) :
    entries pinyin wordlen (n + 1) scel =
      if (bstr scel).1.length ≠ wordlen then ([], (bstr scel).2.2)
      else
        (⟨(bstr scel).1, pinyin⟩ ::
          (entries pinyin wordlen n (readBytes 2 (read 8 (read 2 (bstr scel).2.2).2).2).2.2).1,
         (entries pinyin wordlen n (readBytes 2 (read 8 (read 2 (bstr scel).2.2).2).2).2.2).2) := by
  rw [entries]

/-- An entry whose hanzi string has the expected length is written, and the loop
goes on after its 12 trailing bytes. -/
theorem entries_match (pinyin : String) (wordlen n : Nat) (w : WordEntry) (rest : List Byte)
    (hl : w.hanzi.length < 65536) (ht : w.tail.length = 12)
    (hm : (decode w.hanzi).length = wordlen) :
    entries pinyin wordlen (n + 1) (w.bytes ++ rest) =
      (⟨decode w.hanzi, pinyin⟩ :: (entries pinyin wordlen n rest).1,
        (entries pinyin wordlen n rest).2) := by
  rw [entries_succ, WordEntry.bytes, List.append_assoc, bstr_encBstr _ _ hl]
  simp only [hm, ne_eq, not_true_eq_false, if_false, skip_tail _ _ ht]

/-- An entry whose hanzi string has another length ends the loop; the file is left
right after the string. -/
theorem entries_mismatch (pinyin : String) (wordlen n : Nat) (hanzi rest : List Byte)
    (hl : hanzi.length < 65536) (hm : (decode hanzi).length ≠ wordlen) :
    entries pinyin wordlen (n + 1) (encBstr hanzi ++ rest) = ([], rest) := by
  rw [entries_succ, bstr_encBstr _ _ hl]
  simp [hm]

/-- The loop over a run of matching entries. -/
theorem entries_run (pinyin : String) (wordlen n : Nat) (ws : List WordEntry)
    (rest : List Byte)
    (hs : ∀ w ∈ ws, w.hanzi.length < 65536 ∧ w.tail.length = 12)
    (hm : ∀ w ∈ ws, (decode w.hanzi).length = wordlen) :
    entries pinyin wordlen (ws.length + n) (ws.flatMap WordEntry.bytes ++ rest) =
      (ws.map (fun w => ⟨decode w.hanzi, pinyin⟩) ++ (entries pinyin wordlen n rest).1,
        (entries pinyin wordlen n rest).2) := by
  induction ws with
  | nil => simp
  | cons w ws ih =>
    have hw := hs w (by simp)
    have hws : ∀ v ∈ ws, v.hanzi.length < 65536 ∧ v.tail.length = 12 :=
      fun v hv => hs v (by simp [hv])
    have hmw := hm w (by simp)
    have hmws : ∀ v ∈ ws, (decode v.hanzi).length = wordlen := fun v hv => hm v (by simp [hv])
    have e : (w :: ws).length + n = (ws.length + n) + 1 := by simp; omega
    rw [e, List.flatMap_cons, List.append_assoc, entries_match _ _ _ _ _ hw.1 hw.2 hmw,
      ih hws hmws]
    simp

/-- One iteration of the outer loop on a group whose first entries match: they are
written, and the inner loop goes on with the `m` entries that are left. -/
theorem group_run (dict : Dict) (idxs : List Nat) (ws : List WordEntry) (m : Nat)
    (rest : List Byte) (hn : ws.length + m < 65536) (hl : 2 * idxs.length < 65536)
    (hi : ∀ i ∈ idxs, i < 65536)
    (hs : ∀ w ∈ ws, w.hanzi.length < 65536 ∧ w.tail.length = 12)
    (hm : ∀ w ∈ ws, (decode w.hanzi).length = idxs.length) :
    group dict (encLE 2 (ws.length + m) ++ encLE 2 (2 * idxs.length) ++ idxs.flatMap (encLE 2)
        ++ (ws.flatMap WordEntry.bytes ++ rest)) =
      (ws.map (fun w => ⟨decode w.hanzi, pinyin dict idxs⟩)
          ++ (entries (pinyin dict idxs) idxs.length m rest).1,
        none, (entries (pinyin dict idxs) idxs.length m rest).2) := by
  unfold group
  simp only [List.append_assoc]
  rw [read2_encLE _ _ hn]
  simp only [assigned, errOf]
  rw [← List.append_assoc, pinyins_head dict idxs _ hl hi]
  simp only
  rw [entries_run _ _ _ _ _ hs hm]

/-- A group all of whose entries match is decoded in full. -/
theorem group_wellformed (dict : Dict) (g : WordGroup) (rest : List Byte) (hs : g.Sized)
    (hm : g.Matched) : group dict (g.bytes ++ rest) = (g.records dict, none, rest) := by
  have h := group_run dict g.indexes g.words 0 rest (by simpa using hs.1) hs.2.1 hs.2.2.1
    hs.2.2.2 hm
  simp only [Nat.add_zero, entries_zero, List.append_nil] at h
  rw [WordGroup.bytes, WordGroup.head, List.append_assoc]
  exact h

theorem groups_zero (dict : Dict) (err : Option IOError) (scel : List Byte) :
    groups dict 0 err scel = ([], err, scel) := rfl

theorem groups_succ (dict : Dict) (n : Nat) (scel : List Byte) :
    groups dict (n + 1) none scel =
      ((group dict scel).1 :: (groups dict n (group dict scel).2.1 (group dict scel).2.2).1,
        (groups dict n (group dict scel).2.1 (group dict scel).2.2).2) := by
  rw [groups]
  simp

/-- Once `err` is set the outer loop runs no further iteration. -/
theorem groups_err (dict : Dict) (n : Nat) (e : IOError) (scel : List Byte) :
    groups dict n (some e) scel = ([], some e, scel) := by
  cases n with
  | zero => rfl
  | succ k => rw [groups]; simp

/-- The outer loop over a run of groups all of whose entries match. -/
theorem groups_run (dict : Dict) (gs : List WordGroup) (n : Nat) (rest : List Byte)
    (hs : ∀ g ∈ gs, g.Sized) (hm : ∀ g ∈ gs, g.Matched) :
    groups dict (gs.length + n) none (gs.flatMap WordGroup.bytes ++ rest) =
      (gs.map (WordGroup.records dict) ++ (groups dict n none rest).1,
        (groups dict n none rest).2) := by
  induction gs with
  | nil => simp
  | cons g gs ih =>
    have e : (g :: gs).length + n = (gs.length + n) + 1 := by simp; omega
    rw [e, groups_succ, List.flatMap_cons, List.append_assoc,
      group_wellformed dict g _ (hs g (by simp)) (hm g (by simp))]
    simp only
    rw [ih (fun v hv => hs v (by simp [hv])) (fun v hv => hm v (by simp [hv]))]
    simp

theorem readInt32_encInt32 (n : Int) (rest : List Byte) (hlo : -2 ^ 31 ≤ n) (hhi : n < 2 ^ 31) :
    readInt32 (encInt32 n ++ rest) = (.ok n, rest) := by
  unfold readInt32 encInt32
  have h32 : (2 : Int) ^ 32 = 4294967296 := by norm_num
  have h31 : (2 : Int) ^ 31 = 2147483648 := by norm_num
  rw [h31] at hlo hhi
  rw [h32]
  have hlt : (n % 4294967296).toNat < 256 ^ 4 := by omega
  rw [read_encLE 4 _ rest hlt]
  simp only [toInt32, h32]
  norm_num
  have hmod : (n % 4294967296).toNat % 4294967296 = (n % 4294967296).toNat := by omega
  rw [hmod]
  split <;> omega

theorem pinyindictLoop_succ (cnt : Nat) (pydict : Dict) (scel : List Byte) :
    pinyindictLoop (cnt + 1) pydict scel =
      pinyindictLoop cnt (pydict.set (assigned (read 2 scel).1 0) (bstr (read 2 scel).2).1)
        (bstr (read 2 scel).2).2.2 := by
  rw [pinyindictLoop]

/-- The assignments the loop of `pinyindict` makes on a run of entries. -/
theorem pinyindictLoop_run (es : List PinyinEntry) (n : Nat) (pydict : Dict) (rest : List Byte)
    (hs : ∀ e ∈ es, e.Sized) :
    pinyindictLoop (es.length + n) pydict (es.flatMap PinyinEntry.bytes ++ rest) =
      pinyindictLoop n (es.foldl (fun d e => d.set e.idx (decode e.py)) pydict) rest := by
  induction es generalizing pydict with
  | nil => simp
  | cons e es ih =>
    have he := hs e (by simp)
    have c : (e :: es).length + n = (es.length + n) + 1 := by simp; omega
    rw [c, pinyindictLoop_succ, List.flatMap_cons, PinyinEntry.bytes]
    simp only [List.append_assoc]
    rw [read2_encLE _ _ he.1]
    simp only [assigned]
    rw [bstr_encBstr _ _ he.2]
    simp only
    rw [ih _ (fun v hv => hs v (by simp [hv]))]
    simp

theorem foldl_set_eq (es : List PinyinEntry) (pydict : Dict) (i : Nat) :
    es.foldl (fun d e => d.set e.idx (decode e.py)) pydict i =
      match tableDict es i with
      | some py => some py
      | none => pydict i := by
  induction es generalizing pydict with
  | nil => simp [tableDict, Dict.empty]
  | cons e es ih =>
    rw [List.foldl_cons, ih, tableDict]
    cases h : tableDict es i with
    | some py => simp only [h]
    | none =>
      simp only [h]
      by_cases hi : i = e.idx <;> simp [Dict.set, hi]

theorem foldl_set_empty (es : List PinyinEntry) :
    es.foldl (fun d e => d.set e.idx (decode e.py)) Dict.empty = tableDict es := by
  funext i
  rw [foldl_set_eq]
  cases tableDict es i <;> simp [Dict.empty]

theorem length_tableEntries (es : List PinyinEntry) :
    (es.flatMap PinyinEntry.bytes).length = (es.map fun e => 2 + 2 + e.py.length).sum := by
  induction es with
  | nil => rfl
  | cons e es ih =>
    simp [List.flatMap_cons, PinyinEntry.bytes, encBstr, length_encLE, ih]
    omega

/-! ## Joining -/

theorem intercalate_go_eq_foldl (acc sep : String) (l : List String) :
    String.intercalate.go acc sep l = l.foldl (fun b s => b ++ sep ++ s) acc := by
  induction l generalizing acc with
  | nil => rfl
  | cons a l ih => simp [String.intercalate.go, ih]

theorem join_eq_intercalate (l : List String) (sep : String) :
    join l sep = sep.intercalate l := by
  match l with
  | [] => rfl
  | [e] => rfl
  | e :: f :: es => simp [join, String.intercalate, intercalate_go_eq_foldl]

theorem data_foldl_sep (es : List String) (e sep : String) :
    (es.foldl (fun b s => b ++ sep ++ s) e).data =
      e.data ++ es.flatMap (fun s => sep.data ++ s.data) := by
  induction es generalizing e with
  | nil => simp
  | cons x xs ih => simp [ih, List.flatMap_cons, List.append_assoc]

theorem data_join_cons (e : String) (es : List String) (sep : String) :
    (join (e :: es) sep).data = e.data ++ es.flatMap (fun s => sep.data ++ s.data) := by
  cases es with
  | nil => simp [join]
  | cons f fs => simp only [join]; exact data_foldl_sep _ _ _

theorem count_join (l : List String) (h : ∀ s ∈ l, apostrophe ∉ s.data) :
    (join l "'").data.count apostrophe = l.length - 1 := by
  cases l with
  | nil => decide
  | cons e es =>
    rw [data_join_cons, List.count_append, List.count_eq_zero.mpr (h e (by simp))]
    have hes : ∀ s ∈ es, apostrophe ∉ s.data := fun s hs => h s (by simp [hs])
    clear h
    induction es with
    | nil => simp
    | cons x xs ih =>
      have hx := hes x (by simp)
      have hxs : ∀ s ∈ xs, apostrophe ∉ s.data := fun s hs => hes s (by simp [hs])
      have h1 : List.count apostrophe "'".data = 1 := by decide
      have := ih hxs
      simp only [List.flatMap_cons, List.count_append, h1, List.count_eq_zero.mpr hx,
        List.length_cons, Nat.add_sub_cancel] at this ⊢
      omega

/-! ## The header and the stages of `trans` -/

theorem transHeader_pinyinr (cel : Cel) (data : List Byte) :
    (transHeader cel data).pinyinr = assigned (read 4 data).1 cel.pinyinr := by
  unfold transHeader
  simp only
  split <;> rfl

theorem transHeader_ver (cel : Cel) (data : List Byte) :
    (transHeader cel data).ver = assigned (read 1 (read 4 data).2).1 cel.ver := by
  unfold transHeader
  simp only
  split <;> rfl

theorem transHeader_hzr (cel : Cel) (data : List Byte) :
    (transHeader cel data).hzr =
      if (transHeader cel data).ver = 0x45 then 0x26c4 else 0x2628 := by
  rw [transHeader_ver]
  unfold transHeader
  simp only
  split <;> rfl

theorem transHeader_wordc (cel : Cel) (data : List Byte) :
    (transHeader cel data).wordc = assigned (readInt32 (data.drop 0x124)).1 cel.wordc := by
  unfold transHeader
  simp only
  split <;> rfl

theorem trans_of_error (config : Config) (cel : Cel) (file : String) (data : List Byte)
    (e : IOError) (h : pinyindict (data.drop (transHeader cel data).pinyinr) = .error e) :
    trans config cel file data =
      { trace := [], out := "", panicked := some e, err := none, cel := transHeader cel data } := by
  unfold trans
  simp only [h]

theorem trans_of_ok (config : Config) (cel : Cel) (file : String) (data : List Byte)
    (dict : Dict) (rest : List Byte)
    (h : pinyindict (data.drop (transHeader cel data).pinyinr) = .ok (dict, rest)) :
    trans config cel file data =
      { trace := (wordList config dict (transHeader cel data).wordc.toNat
          (decide (withSuffix file ".txt" = file)) data (transHeader cel data).hzr).1
        out := String.join ((wordList config dict (transHeader cel data).wordc.toNat
          (decide (withSuffix file ".txt" = file)) data
          (transHeader cel data).hzr).1.flatten.map (Emit.text config.withPinYin))
        panicked := none
        err := (wordList config dict (transHeader cel data).wordc.toNat
          (decide (withSuffix file ".txt" = file)) data (transHeader cel data).hzr).2
        cel := { transHeader cel data with dict := dict } } := by
  unfold trans
  simp only [h]

theorem wordList_distinct (config : Config) (dict : Dict) (n : Nat) (data : List Byte)
    (hzr : Nat) :
    wordList config dict n false data hzr =
      ((groups dict n none (data.drop hzr)).1, (groups dict n none (data.drop hzr)).2.1) := by
  simp [wordList]

theorem wordList_shared (config : Config) (dict : Dict) (n : Nat) (data : List Byte)
    (hzr : Nat) :
    wordList config dict n true data hzr =
      ((groupsShared config dict n none ⟨data, hzr, 0⟩).1,
        (groupsShared config dict n none ⟨data, hzr, 0⟩).2.1) := by
  simp [wordList]

/-- The conversion when the output file is another file than the input: the outer
loop runs on the unchanged input. -/
theorem trans_of_ok_distinct (config : Config) (cel : Cel) (file : String) (data : List Byte)
    (dict : Dict) (rest : List Byte) (hne : withSuffix file ".txt" ≠ file)
    (h : pinyindict (data.drop (transHeader cel data).pinyinr) = .ok (dict, rest)) :
    trans config cel file data =
      { trace := (groups dict (transHeader cel data).wordc.toNat none
          (data.drop (transHeader cel data).hzr)).1
        out := String.join ((groups dict (transHeader cel data).wordc.toNat none
          (data.drop (transHeader cel data).hzr)).1.flatten.map (Emit.text config.withPinYin))
        panicked := none
        err := (groups dict (transHeader cel data).wordc.toNat none
          (data.drop (transHeader cel data).hzr)).2.1
        cel := { transHeader cel data with dict := dict } } := by
  rw [trans_of_ok config cel file data dict rest h, decide_eq_false hne, wordList_distinct]

/-- The conversion when the output file is the input file: the outer loop runs on the
file as the writes leave it. -/
theorem trans_of_ok_shared (config : Config) (cel : Cel) (file : String) (data : List Byte)
    (dict : Dict) (rest : List Byte) (heq : withSuffix file ".txt" = file)
    (h : pinyindict (data.drop (transHeader cel data).pinyinr) = .ok (dict, rest)) :
    trans config cel file data =
      { trace := (groupsShared config dict (transHeader cel data).wordc.toNat none
          ⟨data, (transHeader cel data).hzr, 0⟩).1
        out := String.join ((groupsShared config dict (transHeader cel data).wordc.toNat none
          ⟨data, (transHeader cel data).hzr, 0⟩).1.flatten.map (Emit.text config.withPinYin))
        panicked := none
        err := (groupsShared config dict (transHeader cel data).wordc.toNat none
          ⟨data, (transHeader cel data).hzr, 0⟩).2.1
        cel := { transHeader cel data with dict := dict } } := by
  rw [trans_of_ok config cel file data dict rest h, decide_eq_true heq, wordList_shared]

/-! ## The container file -/

theorem length_zeros (n : Nat) : (zeros n).length = n := by
  simp [zeros]

theorem length_encInt32 (n : Int) : (encInt32 n).length = 4 := length_encLE 4 _

theorem container_eq_head (pinyinr ver : Nat) (wordc : Int) (table : List Byte) (hzr : Nat)
    (words : List Byte) :
    container pinyinr ver wordc table hzr words =
      encLE 4 pinyinr ++ (encLE 1 ver ++ (zeros 287 ++
        ((encInt32 wordc ++ zeros (pinyinr - 0x128)) ++
          ((table ++ zeros (hzr - pinyinr - table.length)) ++ words)))) := by
  simp [container, List.append_assoc]

theorem container_drop_wordc (pinyinr ver : Nat) (wordc : Int) (table : List Byte) (hzr : Nat)
    (words : List Byte) :
    (container pinyinr ver wordc table hzr words).drop 0x124 =
      encInt32 wordc ++ (zeros (pinyinr - 0x128) ++
        ((table ++ zeros (hzr - pinyinr - table.length)) ++ words)) := by
  unfold container
  rw [List.drop_left' (by simp [length_encLE, length_zeros])]
  simp [List.append_assoc]

theorem container_drop_pinyinr (pinyinr ver : Nat) (wordc : Int) (table : List Byte) (hzr : Nat)
    (words : List Byte) (hp : 0x128 ≤ pinyinr) :
    (container pinyinr ver wordc table hzr words).drop pinyinr =
      table ++ (zeros (hzr - pinyinr - table.length) ++ words) := by
  unfold container
  rw [← List.append_assoc, List.drop_left' (by simp [length_encLE, length_encInt32, length_zeros]; omega)]
  simp [List.append_assoc]

theorem container_drop_hzr (pinyinr ver : Nat) (wordc : Int) (table : List Byte) (hzr : Nat)
    (words : List Byte) (hp : 0x128 ≤ pinyinr) (hh : pinyinr + table.length ≤ hzr) :
    (container pinyinr ver wordc table hzr words).drop hzr = words := by
  unfold container
  rw [← List.append_assoc, ← List.append_assoc,
    List.drop_left' (by simp [length_encLE, length_encInt32, length_zeros]; omega)]

theorem pinyindict_tableBytes (n : Int) (es : List PinyinEntry) (rest : List Byte)
    (hlo : -2 ^ 31 ≤ n) (hhi : n < 2 ^ 31) (hn : es.length = n.toNat)
    (hs : ∀ e ∈ es, e.Sized) :
    pinyindict (tableBytes n es ++ rest) = .ok (tableDict es, rest) := by
  unfold pinyindict tableBytes
  rw [List.append_assoc, readInt32_encInt32 n _ hlo hhi]
  simp only
  have h := pinyindictLoop_run es 0 Dict.empty rest hs
  simp only [Nat.add_zero, pinyindictLoop, foldl_set_empty] at h
  rw [← hn, h]

/-- The header fields `trans` reads from a file laid out as the format says. -/
theorem transHeader_layout (cel : Cel) (data t0 t1 : List Byte) (pinyinr ver : Nat)
    (wordc : Int) (h0 : data = encLE 4 pinyinr ++ (encLE 1 ver ++ t0))
    (hp : pinyinr < 2 ^ 32) (hv : ver < 256)
    (hwc : data.drop 0x124 = encInt32 wordc ++ t1)
    (hlo : -2 ^ 31 ≤ wordc) (hhi : wordc < 2 ^ 31) :
    (transHeader cel data).pinyinr = pinyinr ∧ (transHeader cel data).ver = ver ∧
      (transHeader cel data).wordc = wordc ∧
      (transHeader cel data).hzr = if ver = 0x45 then 0x26c4 else 0x2628 := by
  have hver : (transHeader cel data).ver = ver := by
    rw [transHeader_ver, h0, read_encLE 4 _ _ (by simpa using hp)]
    simp only
    rw [read_encLE 1 _ _ (by simpa using hv)]
    rfl
  refine ⟨?_, hver, ?_, ?_⟩
  · rw [transHeader_pinyinr, h0, read_encLE 4 _ _ (by simpa using hp)]
    rfl
  · rw [transHeader_wordc, hwc, readInt32_encInt32 _ _ hlo hhi]
    rfl
  · rw [transHeader_hzr, hver]

theorem map_text_records (b : Bool) (dict : Dict) (gs : List WordGroup) :
    (gs.map (WordGroup.records dict)).flatten.map (Emit.text b) =
      gs.flatMap fun g => g.words.map fun w =>
        if b then decode w.hanzi ++ "\t" ++ "'".intercalate (g.indexes.map fun i => (dict i).getD "")
          ++ "\n"
        else decode w.hanzi ++ "\n" := by
  induction gs with
  | nil => rfl
  | cons g gs ih =>
    simp only [List.map_cons, List.flatten_cons, List.map_append, ih, List.flatMap_cons]
    congr 1
    simp only [WordGroup.records, List.map_map]
    apply List.map_congr_left
    intro w _
    simp [Emit.text, pinyin, join_eq_intercalate, Dict.at]

/-- One iteration of the outer loop on a stream that holds the head of a group, the
matching entries `ws`, the hanzi string of a next entry that does not match, and then
`rest`: the records of `ws` are written, and the file is left at `rest`. -/
theorem group_mismatch_stream (dict : Dict) (g : WordGroup) (ws ws' : List WordEntry)
    (w : WordEntry) (rest : List Byte) (hs : g.Sized) (hw : g.words = ws ++ w :: ws')
    (hgood : ∀ v ∈ ws, (decode v.hanzi).length = g.indexes.length)
    (hbad : (decode w.hanzi).length ≠ g.indexes.length) :
    group dict (g.head ++ (ws.flatMap WordEntry.bytes ++ (encBstr w.hanzi ++ rest))) =
      (ws.map (fun v => ⟨decode v.hanzi, pinyin dict g.indexes⟩), none, rest) := by
  obtain ⟨h1, h2, h3, h4⟩ := hs
  have hlen : g.words.length = ws.length + (ws'.length + 1) := by simp [hw]
  have hsz : ∀ v ∈ ws, v.hanzi.length < 65536 ∧ v.tail.length = 12 :=
    fun v hv => h4 v (by simp [hw, hv])
  have hwl : w.hanzi.length < 65536 := (h4 w (by simp [hw])).1
  have h := group_run dict g.indexes ws (ws'.length + 1) (encBstr w.hanzi ++ rest)
    (by omega) h2 h3 hsz hgood
  rw [entries_mismatch _ _ _ _ _ hwl hbad] at h
  simp only [List.append_nil] at h
  rw [← h, WordGroup.head, hlen]

/-- One iteration of the outer loop on a group whose entries `ws` match and whose next
entry `w` does not: the records of `ws` are written, and the file is left right after
the hanzi string of `w`. -/
theorem group_mismatch_split (dict : Dict) (g : WordGroup) (ws ws' : List WordEntry)
    (w : WordEntry) (rest : List Byte) (hs : g.Sized) (hw : g.words = ws ++ w :: ws')
    (hgood : ∀ v ∈ ws, (decode v.hanzi).length = g.indexes.length)
    (hbad : (decode w.hanzi).length ≠ g.indexes.length) :
    group dict (g.bytes ++ rest) =
      (ws.map (fun v => ⟨decode v.hanzi, pinyin dict g.indexes⟩), none,
        w.tail ++ (ws'.flatMap WordEntry.bytes ++ rest)) := by
  rw [← group_mismatch_stream dict g ws ws' w _ hs hw hgood hbad, WordGroup.bytes, hw]
  simp [List.flatMap_append, List.flatMap_cons, WordEntry.bytes, List.append_assoc]

theorem words_split (g : WordGroup) (k : Nat) (hk : k < g.words.length) :
    g.words = g.words.take k ++ g.words.get ⟨k, hk⟩ :: g.words.drop (k + 1) := by
  rw [List.get_eq_getElem, ← List.drop_eq_getElem_cons hk, List.take_append_drop]

/-- The conversion of a container file with a well-formed pinyin table: what it
writes into another file is what the outer loop produces on the bytes at the hanzi
offset. -/
theorem trans_container (config : Config) (cel : Cel) (file : String) (pinyinr ver : Nat) (wordc n : Int)
    (table : List PinyinEntry) (hzr : Nat) (words : List Byte)
    (hp : 0x128 ≤ pinyinr) (hp2 : pinyinr < 2 ^ 32) (hv : ver < 256)
    (hwlo : -2 ^ 31 ≤ wordc) (hwhi : wordc < 2 ^ 31)
    (hnlo : -2 ^ 31 ≤ n) (hnhi : n < 2 ^ 31) (hn : table.length = n.toNat)
    (hts : ∀ e ∈ table, e.Sized)
    (hh : pinyinr + (tableBytes n table).length ≤ hzr)
    (hhz : hzr = if ver = 0x45 then 0x26c4 else 0x2628)
    (hne : withSuffix file ".txt" ≠ file) :
    (trans config cel file (container pinyinr ver wordc (tableBytes n table) hzr words)).trace =
        (groups (tableDict table) wordc.toNat none words).1 ∧
      (trans config cel file (container pinyinr ver wordc (tableBytes n table) hzr words)).out =
        String.join ((groups (tableDict table) wordc.toNat none words).1.flatten.map
          (Emit.text config.withPinYin)) ∧
      (trans config cel file (container pinyinr ver wordc (tableBytes n table) hzr words)).panicked
        = none ∧
      (trans config cel file (container pinyinr ver wordc (tableBytes n table) hzr words)).err =
        (groups (tableDict table) wordc.toNat none words).2.1 := by
  obtain ⟨e1, _, e3, e4⟩ := transHeader_layout cel _ _ _ pinyinr ver wordc
    (container_eq_head pinyinr ver wordc (tableBytes n table) hzr words) hp2 hv
    (container_drop_wordc pinyinr ver wordc (tableBytes n table) hzr words) hwlo hwhi
  have hd : pinyindict ((container pinyinr ver wordc (tableBytes n table) hzr words).drop
      (transHeader cel (container pinyinr ver wordc (tableBytes n table) hzr words)).pinyinr)
      = .ok (tableDict table, zeros (hzr - pinyinr - (tableBytes n table).length) ++ words) := by
    rw [e1, container_drop_pinyinr _ _ _ _ _ _ hp]
    exact pinyindict_tableBytes n table _ hnlo hnhi hn hts
  rw [trans_of_ok_distinct config cel file _ _ _ hne hd, e3, e4, ← hhz, container_drop_hzr _ _ _ _ _ _ hp hh]
  exact ⟨rfl, rfl, rfl, rfl⟩

/-- When the outer loop is left with `err == nil`, it has run all its ticks. -/
theorem groups_length (dict : Dict) (n : Nat) (err : Option IOError) (scel : List Byte)
    (h : (groups dict n err scel).2.1 = none) : (groups dict n err scel).1.length = n := by
  induction n generalizing err scel with
  | zero => rfl
  | succ k ih =>
    cases err with
    | some e => rw [groups_err] at h; cases h
    | none =>
      rw [groups_succ] at h ⊢
      simp only [List.length_cons] at h ⊢
      rw [ih _ _ h]

theorem trans_cel_hzr (config : Config) (cel : Cel) (file : String) (data : List Byte) :
    (trans config cel file data).cel.hzr = (transHeader cel data).hzr := by
  cases h : pinyindict (data.drop (transHeader cel data).pinyinr) with
  | error e => rw [trans_of_error config cel file data e h]
  | ok v => rw [trans_of_ok config cel file data v.1 v.2 h]

theorem container_version_byte (pinyinr ver : Nat) (wordc : Int) (table : List Byte)
    (hzr : Nat) (words : List Byte) :
    (container pinyinr ver wordc table hzr words)[4]? = some (Fin.ofNat (ver % 256)) := by
  rw [container_eq_head]
  simp [encLE]

/-- When the byte at offset 4 is there, it is what `trans` reads into `cel.ver`. -/
theorem transHeader_ver_of_byte (cel : Cel) (data : List Byte) (b : Byte)
    (h : data[4]? = some b) : (transHeader cel data).ver = b.val := by
  obtain ⟨hlt, hb⟩ := List.getElem?_eq_some.mp h
  rw [transHeader_ver, read_of_le 4 data (by omega)]
  simp only
  rw [read_of_le 1 _ (by simp; omega), List.drop_eq_getElem_cons hlt, hb]
  simp [assigned, le]

theorem trans_trace_of_not_panicked (config : Config) (cel : Cel) (file : String)
    (data : List Byte) (h : (trans config cel file data).panicked = none) :
    (trans config cel file data).trace =
      (wordList config (trans config cel file data).cel.dict
        (trans config cel file data).cel.wordc.toNat (decide (withSuffix file ".txt" = file))
        data (trans config cel file data).cel.hzr).1 := by
  cases hd : pinyindict (data.drop (transHeader cel data).pinyinr) with
  | error e =>
    rw [trans_of_error config cel file data e hd] at h
    cases h
  | ok v => rw [trans_of_ok config cel file data v.1 v.2 hd]

/-- The map of a table sends an index to the syllable of the last entry carrying it. -/
theorem tableDict_eq_last (es : List PinyinEntry) (i : Nat) :
    tableDict es i = ((es.filter fun e => e.idx = i).getLast?).map fun e => decode e.py := by
  induction es with
  | nil => rfl
  | cons e es ih =>
    rw [tableDict]
    simp only
    rw [ih]
    by_cases hi : e.idx = i
    · have hi' : i = e.idx := hi.symm
      rw [List.filter_cons_of_pos (by simpa using hi)]
      cases hf : es.filter (fun e => e.idx = i) with
      | nil => simp [hi']
      | cons x xs =>
        obtain ⟨y, hy⟩ : ∃ y, (x :: xs).getLast? = some y :=
          ⟨_, List.getLast?_eq_getLast _ (by simp)⟩
        simp [List.getLast?_cons_cons, hy]
    · have hi' : ¬ i = e.idx := fun h => hi h.symm
      rw [List.filter_cons_of_neg (by simpa using hi)]
      cases hl : (es.filter (fun e => e.idx = i)).getLast? with
      | none => simp [hi']
      | some x => simp

theorem tableDict_isSome (es : List PinyinEntry) (i : Nat) :
    (tableDict es i).isSome ↔ ∃ e ∈ es, e.idx = i := by
  rw [tableDict_eq_last, Option.isSome_map']
  constructor
  · intro h
    obtain ⟨x, hx⟩ := Option.isSome_iff_exists.mp h
    have hm := List.mem_of_getLast?_eq_some hx
    rw [List.mem_filter] at hm
    exact ⟨x, hm.1, by simpa using hm.2⟩
  · rintro ⟨e, he, rfl⟩
    have hne : es.filter (fun x => x.idx = e.idx) ≠ [] := by
      intro h0
      have : e ∈ es.filter (fun x => x.idx = e.idx) := List.mem_filter.mpr ⟨he, by simp⟩
      rw [h0] at this
      cases this
    cases hl : (es.filter (fun x => x.idx = e.idx)).getLast? with
    | none => exact absurd (List.getLast?_eq_none_iff.mp hl) hne
    | some x => rfl

theorem readBytes_of_lt (n : Nat) (scel : List Byte) (h : scel.length < n) :
    readBytes n scel =
      (.error (if scel.isEmpty then .EOF else .ErrUnexpectedEOF), List.replicate n 0, []) := by
  simp [readBytes, readFull_of_lt n scel h]

theorem length_u16s_even (n : Nat) (bs : List Byte) (h : bs.length = 2 * n) :
    (u16s bs).length = n := by
  induction n generalizing bs with
  | zero =>
    have : bs = [] := List.length_eq_zero.mp (by omega)
    subst this; rfl
  | succ k ih =>
    match bs, h with
    | a :: b :: rest, h =>
      simp only [u16s, List.length_cons]
      rw [ih rest (by simp only [List.length_cons] at h; omega)]

/-! ## Short files -/

theorem pinyindict_of_lt (scel : List Byte) (h : scel.length < 4) :
    pinyindict scel = .error (if scel.isEmpty then .EOF else .ErrUnexpectedEOF) := by
  unfold pinyindict readInt32 read
  rw [readFull_of_lt 4 scel h]

theorem pinyindict_of_le (scel : List Byte) (h : 4 ≤ scel.length) :
    ∃ v, pinyindict scel = .ok v := by
  unfold pinyindict readInt32
  rw [read_of_le 4 scel h]
  exact ⟨_, rfl⟩

/-- The conversion panics exactly when fewer than 4 bytes are left at the pinyin
offset. -/
theorem trans_panicked_iff (config : Config) (cel : Cel) (file : String) (data : List Byte) :
    (trans config cel file data).panicked = none ↔
      4 ≤ (data.drop (transHeader cel data).pinyinr).length := by
  by_cases h : 4 ≤ (data.drop (transHeader cel data).pinyinr).length
  · obtain ⟨v, hv⟩ := pinyindict_of_le _ h
    rw [trans_of_ok config cel file data v.1 v.2 hv]
    exact ⟨fun _ => h, fun _ => rfl⟩
  · rw [trans_of_error config cel file data _ (pinyindict_of_lt _ (by omega))]
    exact ⟨fun hp => (by cases hp), fun h' => absurd h' h⟩

theorem group_nil (dict : Dict) : group dict [] = ([], some .EOF, []) := rfl

theorem groups_nil_flatten (dict : Dict) (n : Nat) :
    (groups dict n none []).1.flatten = [] := by
  cases n with
  | zero => rfl
  | succ k => rw [groups_succ, group_nil, groups_err]; rfl

/-! ## The loop on a shared file -/

theorem entriesShared_zero (config : Config) (pinyin : String) (wordlen : Nat) (st : Shared) :
    entriesShared config pinyin wordlen 0 st = ([], st) := rfl

theorem groupShared_eq (config : Config) (dict : Dict) (st : Shared) :
    groupShared config dict st =
      ((entriesShared config
          (pinyins (st.moved (read 2 st.scel).2).scel dict).1.1
          (pinyins (st.moved (read 2 st.scel).2).scel dict).1.2
          (assigned (read 2 st.scel).1 0)
          ((st.moved (read 2 st.scel).2).moved
            (pinyins (st.moved (read 2 st.scel).2).scel dict).2)).1,
        errOf (read 2 st.scel).1,
        (entriesShared config
          (pinyins (st.moved (read 2 st.scel).2).scel dict).1.1
          (pinyins (st.moved (read 2 st.scel).2).scel dict).1.2
          (assigned (read 2 st.scel).1 0)
          ((st.moved (read 2 st.scel).2).moved
            (pinyins (st.moved (read 2 st.scel).2).scel dict).2)).2) := rfl

theorem groupsShared_zero (config : Config) (dict : Dict) (err : Option IOError)
    (st : Shared) : groupsShared config dict 0 err st = ([], err, st) := rfl

theorem groupsShared_succ (config : Config) (dict : Dict) (n : Nat) (st : Shared) :
    groupsShared config dict (n + 1) none st =
      ((groupShared config dict st).1 ::
          (groupsShared config dict n (groupShared config dict st).2.1
            (groupShared config dict st).2.2).1,
        (groupsShared config dict n (groupShared config dict st).2.1
          (groupShared config dict st).2.2).2) := by
  rw [groupsShared]
  simp

theorem groupsShared_err (config : Config) (dict : Dict) (n : Nat) (e : IOError)
    (st : Shared) : groupsShared config dict n (some e) st = ([], some e, st) := by
  cases n with
  | zero => rfl
  | succ k => rw [groupsShared]; simp

theorem groupsShared_length (config : Config) (dict : Dict) (n : Nat) (err : Option IOError)
    (st : Shared) (h : (groupsShared config dict n err st).2.1 = none) :
    (groupsShared config dict n err st).1.length = n := by
  induction n generalizing err st with
  | zero => rfl
  | succ k ih =>
    cases err with
    | some e => rw [groupsShared_err] at h; cases h
    | none =>
      rw [groupsShared_succ] at h ⊢
      simp only [List.length_cons] at h ⊢
      rw [ih _ _ h]

/-- A read at the end of the shared file leaves the reading handle where it is. -/
theorem moved_of_nil (st : Shared) (h : st.scel = []) (scel : List Byte) :
    st.moved scel = st := by
  simp [Shared.moved, h]

/-- At the end of the shared file an iteration of the outer loop writes nothing and
sets `err`. -/
theorem groupShared_nil (config : Config) (dict : Dict) (st : Shared) (h : st.scel = []) :
    groupShared config dict st = ([], some .EOF, st) := by
  rw [groupShared_eq, h]
  have h1 : st.moved (read 2 ([] : List Byte)).2 = st := moved_of_nil st h _
  rw [h1, h]
  have h2 : st.moved (pinyins [] dict).2 = st := moved_of_nil st h _
  rw [h2]
  rfl

theorem groupsShared_nil_flatten (config : Config) (dict : Dict) (n : Nat) (st : Shared)
    (h : st.scel = []) : (groupsShared config dict n none st).1.flatten = [] := by
  cases n with
  | zero => rfl
  | succ k => rw [groupsShared_succ, groupShared_nil config dict st h, groupsShared_err]; rfl

theorem wordList_zero (config : Config) (dict : Dict) (shared : Bool) (data : List Byte)
    (hzr : Nat) : wordList config dict 0 shared data hzr = ([], none) := by
  cases shared <;> rfl

/-- When the outer loop is left with `err == nil`, it has run all its ticks, whether
the file is shared or not. -/
theorem wordList_length (config : Config) (dict : Dict) (n : Nat) (shared : Bool)
    (data : List Byte) (hzr : Nat) (h : (wordList config dict n shared data hzr).2 = none) :
    (wordList config dict n shared data hzr).1.length = n := by
  cases shared with
  | false =>
    rw [wordList_distinct] at h ⊢
    exact groups_length _ _ _ _ h
  | true =>
    rw [wordList_shared] at h ⊢
    exact groupsShared_length _ _ _ _ _ h

/-- No record is written when the file ends before the hanzi offset. -/
theorem wordList_short (config : Config) (dict : Dict) (n : Nat) (shared : Bool)
    (data : List Byte) (hzr : Nat) (h : data.drop hzr = []) :
    (wordList config dict n shared data hzr).1.flatten = [] := by
  cases shared with
  | false =>
    rw [wordList_distinct, h]
    exact groups_nil_flatten _ _
  | true =>
    rw [wordList_shared]
    exact groupsShared_nil_flatten _ _ _ _ h

theorem trans_out_eq (config : Config) (cel : Cel) (file : String) (data : List Byte) :
    (trans config cel file data).out =
      String.join ((trans config cel file data).trace.flatten.map
        (Emit.text config.withPinYin)) := by
  cases h : pinyindict (data.drop (transHeader cel data).pinyinr) with
  | error e => rw [trans_of_error config cel file data e h]; rfl
  | ok v => rw [trans_of_ok config cel file data v.1 v.2 h]

/-- A file that ends before the hanzi table yields no record. -/
theorem trans_short (config : Config) (cel : Cel) (file : String) (data : List Byte)
    (h : data.length ≤ 0x2628) :
    (trans config cel file data).trace.flatten = [] ∧ (trans config cel file data).out = "" := by
  have hd : data.drop (transHeader cel data).hzr = [] := by
    rw [List.drop_eq_nil_iff, transHeader_hzr]
    split <;> omega
  have ht : (trans config cel file data).trace.flatten = [] := by
    cases hp : pinyindict (data.drop (transHeader cel data).pinyinr) with
    | error e => rw [trans_of_error config cel file data e hp]; rfl
    | ok v =>
      rw [trans_of_ok config cel file data v.1 v.2 hp]
      exact wordList_short _ _ _ _ _ _ hd
  refine ⟨ht, ?_⟩
  rw [trans_out_eq, ht]
  rfl

/-- What `trans` writes and whether it panics is determined by the file, its path, the
flag and the three header values the later stages use. -/
theorem trans_eq_of_header (config : Config) (cel cel' : Cel) (file : String)
    (data : List Byte)
    (hp : (transHeader cel data).pinyinr = (transHeader cel' data).pinyinr)
    (hw : (transHeader cel data).wordc = (transHeader cel' data).wordc)
    (hz : (transHeader cel data).hzr = (transHeader cel' data).hzr) :
    (trans config cel file data).trace = (trans config cel' file data).trace ∧
      (trans config cel file data).out = (trans config cel' file data).out ∧
      (trans config cel file data).panicked = (trans config cel' file data).panicked := by
  cases h : pinyindict (data.drop (transHeader cel data).pinyinr) with
  | error e =>
    have h' := h
    rw [hp] at h'
    rw [trans_of_error config cel file data e h, trans_of_error config cel' file data e h']
    exact ⟨rfl, rfl, rfl⟩
  | ok v =>
    have h' := h
    rw [hp] at h'
    rw [trans_of_ok config cel file data v.1 v.2 h, trans_of_ok config cel' file data v.1 v.2 h',
      hw, hz]
    exact ⟨rfl, rfl, rfl⟩

theorem transHeader_pinyinr_of_le (cel : Cel) (data : List Byte) (h : 4 ≤ data.length) :
    (transHeader cel data).pinyinr = le (data.take 4) := by
  rw [transHeader_pinyinr, read_of_le 4 data h]; rfl

theorem transHeader_ver_of_le (cel : Cel) (data : List Byte) (h : 5 ≤ data.length) :
    (transHeader cel data).ver = le ((data.drop 4).take 1) := by
  rw [transHeader_ver, read_of_le 4 data (by omega)]
  simp only
  rw [read_of_le 1 _ (by simp; omega)]; rfl

theorem transHeader_wordc_of_le (cel : Cel) (data : List Byte) (h : 0x128 ≤ data.length) :
    (transHeader cel data).wordc = toInt32 (le ((data.drop 0x124).take 4)) := by
  rw [transHeader_wordc]
  unfold readInt32
  rw [read_of_le 4 _ (by simp; omega)]; rfl

theorem trans_trace_config (config config' : Config) (cel : Cel) (file : String)
    (data : List Byte) (hne : withSuffix file ".txt" ≠ file) :
    (trans config cel file data).trace = (trans config' cel file data).trace ∧
      (trans config cel file data).panicked = (trans config' cel file data).panicked := by
  cases h : pinyindict (data.drop (transHeader cel data).pinyinr) with
  | error e =>
    rw [trans_of_error config cel file data e h, trans_of_error config' cel file data e h]
    exact ⟨rfl, rfl⟩
  | ok v =>
    rw [trans_of_ok_distinct config cel file data v.1 v.2 hne h,
      trans_of_ok_distinct config' cel file data v.1 v.2 hne h]
    exact ⟨rfl, rfl⟩

/-! ## Well-formed containers -/

theorem trans_laid (config : Config) (cel : Cel) (file : String) (data : List Byte)
    (table : List PinyinEntry) (gs : List WordGroup) (h : Laid data table gs)
    (hne : withSuffix file ".txt" ≠ file) :
    (trans config cel file data).trace = gs.map (WordGroup.records (tableDict table)) := by
  obtain ⟨pinyinr, ver, t0, t1, t2, t3, hp, hv, h0, hwc, hgs, hpy, htl, hts, hhz, hs, hm⟩ := h
  have hwlo : -2 ^ 31 ≤ (gs.length : Int) := by norm_num; omega
  have hwhi : (gs.length : Int) < 2 ^ 31 := by exact_mod_cast hgs
  obtain ⟨e1, _, e3, e4⟩ := transHeader_layout cel data t0 t1 pinyinr ver gs.length h0 hp hv
    hwc hwlo hwhi
  have hnlo : -2 ^ 31 ≤ (table.length : Int) := by norm_num; omega
  have hnhi : (table.length : Int) < 2 ^ 31 := by exact_mod_cast htl
  have hd : pinyindict (data.drop (transHeader cel data).pinyinr) = .ok (tableDict table, t2) := by
    rw [e1, hpy]
    exact pinyindict_tableBytes table.length table t2 hnlo hnhi rfl hts
  rw [trans_of_ok_distinct config cel file data _ _ hne hd, e3, e4, hhz]
  have hg := groups_run (tableDict table) gs 0 t3 hs hm
  simp only [Nat.add_zero, groups_zero, List.append_nil] at hg
  simp only [Int.toNat_ofNat, hg]

theorem records_eq_of_content (dict : Dict) (g g' : WordGroup) (h : g.content = g'.content) :
    g.records dict = g'.records dict := by
  have h1 : g.indexes = g'.indexes := congrArg Prod.fst h
  have h2 : g.words.map (fun w => w.hanzi) = g'.words.map (fun w => w.hanzi) :=
    congrArg Prod.snd h
  have e : ∀ x : WordGroup, x.records dict =
      (x.words.map fun w => w.hanzi).map fun hz => ⟨decode hz, pinyin dict x.indexes⟩ := by
    intro x
    simp [WordGroup.records, List.map_map, Function.comp_def]
  rw [e g, e g', h1, h2]

theorem map_records_eq_of_content (dict : Dict) (gs gs' : List WordGroup)
    (h : gs.map WordGroup.content = gs'.map WordGroup.content) :
    gs.map (WordGroup.records dict) = gs'.map (WordGroup.records dict) := by
  induction gs generalizing gs' with
  | nil =>
    cases gs' with
    | nil => rfl
    | cons _ _ => simp at h
  | cons g gs ih =>
    cases gs' with
    | nil => simp at h
    | cons g' gs' =>
      simp only [List.map_cons, List.cons.injEq] at h ⊢
      exact ⟨records_eq_of_content dict g g' h.1, ih gs' h.2⟩

theorem container_laid (pinyinr ver : Nat) (table : List PinyinEntry) (gs : List WordGroup)
    (hzr : Nat) (hp : 0x128 ≤ pinyinr) (hp2 : pinyinr < 2 ^ 32) (hv : ver < 256)
    (hgs : gs.length < 2 ^ 31) (htl : table.length < 2 ^ 31) (hts : ∀ e ∈ table, e.Sized)
    (hh : pinyinr + (tableBytes table.length table).length ≤ hzr)
    (hhz : hzr = if ver = 0x45 then 0x26c4 else 0x2628)
    (hs : ∀ g ∈ gs, g.Sized) (hm : ∀ g ∈ gs, g.Matched) :
    Laid (container pinyinr ver gs.length (tableBytes table.length table) hzr
      (gs.flatMap WordGroup.bytes)) table gs :=
  ⟨pinyinr, ver, _, _, _, [], hp2, hv, container_eq_head _ _ _ _ _ _,
    container_drop_wordc _ _ _ _ _ _, hgs, container_drop_pinyinr _ _ _ _ _ _ hp, htl, hts,
    by rw [← hhz, container_drop_hzr _ _ _ _ _ _ hp hh, List.append_nil], hs, hm⟩

/-! ## Trimming -/

theorem rdropWhile_append_replicate (l : List Char) :
    ∃ k, l = l.rdropWhile (fun r => r == nul) ++ List.replicate k nul := by
  induction l using List.reverseRecOn with
  | nil => exact ⟨0, rfl⟩
  | append_singleton l x ih =>
    by_cases hx : (x == nul) = true
    · obtain ⟨k, hk⟩ := ih
      refine ⟨k + 1, ?_⟩
      rw [List.rdropWhile_concat_pos (fun r => r == nul) l x hx, List.replicate_succ', ← List.append_assoc, ← hk]
      have : x = nul := by simpa using hx
      rw [this]
    · refine ⟨0, ?_⟩
      rw [List.rdropWhile_concat_neg (fun r => r == nul) l x hx]
      simp

theorem rdropWhile_getLast (l : List Char) :
    (l.rdropWhile fun r => r == nul).getLast? ≠ some nul := by
  intro h
  have hne : l.rdropWhile (fun r => r == nul) ≠ [] := by
    intro h0
    rw [h0] at h
    cases h
  have hl := List.rdropWhile_last_not (fun r => r == nul) l hne
  rw [List.getLast?_eq_getLast _ hne] at h
  have : (l.rdropWhile fun r => r == nul).getLast hne = nul := Option.some.inj h
  rw [this] at hl
  simp at hl

theorem getLast_append_replicate (t : List Char) (c : List Char) (hc : c ≠ [])
    (hall : ∀ x ∈ c, x = nul) : (t ++ c).getLast? = some nul := by
  rw [List.getLast?_append_of_ne_nil _ hc, List.getLast?_eq_getLast _ hc]
  exact congrArg some (hall _ (List.getLast_mem hc))

/-- No longer prefix of a list than its right-trimmed part ends in something other
than U+0000. -/
theorem rdropWhile_longest (l t : List Char) (ht : t <+: l) (hlast : t.getLast? ≠ some nul) :
    t.length ≤ (l.rdropWhile fun r => r == nul).length := by
  obtain ⟨k, hk⟩ := rdropWhile_append_replicate l
  obtain ⟨u, hu⟩ := ht
  rw [hk] at hu
  rcases List.append_eq_append_iff.mp hu with ⟨a, ha, _⟩ | ⟨c, hc, hr⟩
  · rw [ha]; simp
  · by_cases hc0 : c = []
    · rw [hc, hc0]; simp
    · exfalso
      apply hlast
      rw [hc]
      apply getLast_append_replicate _ _ hc0
      intro x hx
      have hx' : x ∈ List.replicate k nul := by rw [hr]; exact List.mem_append_left _ hx
      exact (List.mem_replicate.mp hx').2

/-! ## Paths -/

/-- What the loop of `filepath.Ext` returns: nothing, and then every `.` still to be
visited lies behind a `/`; or the rest of the path from the first `.` it meets, before
which it has met neither `.` nor `/`. -/
theorem extFrom_spec (rev acc : List Char) :
    (extFrom rev acc = [] ∧ ∀ r1 r2, rev = r1 ++ '.' :: r2 → '/' ∈ r1) ∨
      ∃ r1 r2, rev = r1 ++ '.' :: r2 ∧ '.' ∉ r1 ∧ '/' ∉ r1 ∧
        extFrom rev acc = '.' :: (r1.reverse ++ acc) := by
  induction rev generalizing acc with
  | nil =>
    left
    refine ⟨rfl, fun r1 r2 h => ?_⟩
    cases r1 <;> cases h
  | cons c rev ih =>
    by_cases hs : c = '/'
    · left
      subst hs
      refine ⟨by simp [extFrom], fun r1 r2 h => ?_⟩
      cases r1 with
      | nil => simp at h
      | cons a r1 =>
        simp only [List.cons_append, List.cons.injEq] at h
        simp [← h.1]
    · by_cases hd : c = '.'
      · right
        subst hd
        exact ⟨[], rev, rfl, by simp, by simp, by simp [extFrom]⟩
      · have he : extFrom (c :: rev) acc = extFrom rev (c :: acc) := by simp [extFrom, hs, hd]
        rcases ih (c :: acc) with ⟨h1, h2⟩ | ⟨r1, r2, h1, h2, h3, h4⟩
        · left
          refine ⟨by rw [he, h1], fun r1 r2 h => ?_⟩
          cases r1 with
          | nil =>
            simp only [List.nil_append, List.cons.injEq] at h
            exact absurd h.1 hd
          | cons a r1 =>
            simp only [List.cons_append, List.cons.injEq] at h
            exact List.mem_cons_of_mem _ (h2 r1 r2 h.2)
        · right
          refine ⟨c :: r1, r2, by rw [h1]; rfl, ?_, ?_, ?_⟩
          · simp only [List.mem_cons, not_or]
            exact ⟨fun h => hd h.symm, h2⟩
          · simp only [List.mem_cons, not_or]
            exact ⟨fun h => hs h.symm, h3⟩
          · rw [he, h4]
            simp

/-- The extension is a suffix of the path; it is empty, and then no `.` of the path
lies after the last `/`, or it starts at a `.` after which there is neither `.` nor
`/`. -/
theorem Ext_spec (fn : String) :
    ∃ stem : List Char, fn.data = stem ++ (Ext fn).data ∧
      (((Ext fn).data = [] ∧ ∀ pre post, fn.data = pre ++ '.' :: post → '/' ∈ post) ∨
        ∃ e, (Ext fn).data = '.' :: e ∧ '.' ∉ e ∧ '/' ∉ e) := by
  rcases extFrom_spec fn.data.reverse [] with ⟨h1, h2⟩ | ⟨r1, r2, h1, h2, h3, h4⟩
  · refine ⟨fn.data, by simp [Ext, h1], Or.inl ⟨by simp [Ext, h1], fun pre post h => ?_⟩⟩
    have := h2 post.reverse pre.reverse (by rw [h]; simp)
    simpa using this
  · have hfn : fn.data = r2.reverse ++ '.' :: r1.reverse := by
      have := congrArg List.reverse h1
      simpa using this
    refine ⟨r2.reverse, by rw [hfn]; simp [Ext, h4], Or.inr ⟨r1.reverse, by simp [Ext, h4], ?_, ?_⟩⟩
    · simpa using h2
    · simpa using h3

theorem TrimSuffix_data (fn x : String) (stem : List Char) (h : fn.data = stem ++ x.data) :
    (TrimSuffix fn x).data = stem := by
  have hs : x.data.isSuffixOf fn.data = true := by
    rw [List.isSuffixOf_iff_suffix]
    exact ⟨stem, h.symm⟩
  simp [TrimSuffix, hs, h]

theorem rdropWhile_append_of_all (p : Char → Bool) (l t : List Char) (h : ∀ c ∈ t, p c = true) :
    (l ++ t).rdropWhile p = l.rdropWhile p := by
  induction t using List.reverseRecOn with
  | nil => simp
  | append_singleton t x ih =>
    rw [← List.append_assoc, List.rdropWhile_concat_pos p (l ++ t) x (h x (by simp))]
    exact ih (fun c hc => h c (by simp [hc]))

/-! ## Writes into the file that is read -/

theorem moved_append (st : Shared) (pre suf : List Byte) (h : st.scel = pre ++ suf) :
    st.moved suf = ⟨st.data, st.pos + pre.length, st.wpos⟩ ∧
      (⟨st.data, st.pos + pre.length, st.wpos⟩ : Shared).scel = suf := by
  refine ⟨?_, ?_⟩
  · simp [Shared.moved, h]
  · have h' : st.data.drop st.pos = pre ++ suf := h
    simp only [Shared.scel]
    rw [← List.drop_drop, h', List.drop_left]

theorem moved_nil_scel (st : Shared) : (st.moved []).scel = [] := by
  simp only [Shared.moved, Shared.scel, List.length_nil, Nat.sub_zero, List.length_drop,
    List.drop_eq_nil_iff]
  omega

theorem writeAt_zero (data bs : List Byte) : writeAt data 0 bs = bs ++ data.drop bs.length := by
  simp [writeAt]

/-- A write that ends at or before an offset does not change the file from that offset
on. -/
theorem drop_writeAt (data bs : List Byte) (off pos : Nat) (h1 : off + bs.length ≤ pos)
    (h2 : off ≤ data.length) : (writeAt data off bs).drop pos = data.drop pos := by
  have h3 : off - data.length = 0 := by omega
  have hl : (data.take off ++ List.replicate (off - data.length) 0 ++ bs).length
      = off + bs.length := by
    simp [h3, List.length_take, Nat.min_eq_left h2]
  obtain ⟨k, rfl⟩ : ∃ k, pos = (off + bs.length) + k := ⟨pos - (off + bs.length), by omega⟩
  unfold writeAt
  rw [← hl, ← List.drop_drop, List.drop_left, hl, List.drop_drop]

theorem utf8_append (a b : String) : utf8 (a ++ b) = utf8 a ++ utf8 b := by
  simp [utf8, List.flatMap_append]

theorem length_aSyllable (n : Nat) : (aSyllable n).length = 2 * n := by
  induction n with
  | zero => rfl
  | succ k ih => simp only [aSyllable, List.length_cons, ih]; omega

theorem length_aRun (n : Nat) : (aRun n).length = n := by
  induction n with
  | zero => rfl
  | succ k ih => simp only [aRun, List.length_cons, ih]

theorem aRun_add (m n : Nat) : aRun (m + n) = aRun m ++ aRun n := by
  induction m with
  | zero => simp [aRun]
  | succ k ih =>
    have e : k + 1 + n = (k + n) + 1 := by omega
    rw [e]
    simp only [aRun, ih, List.cons_append]

/-- A code unit outside the surrogate range decodes to its rune, whatever follows. -/
theorem decodeUTF16_cons_bmp (a b : Byte) (rest : List Byte)
    (h : ¬ (0xD800 ≤ a.val + 256 * b.val ∧ a.val + 256 * b.val < 0xE000)) :
    decodeUTF16 (a :: b :: rest) = Char.ofNat (a.val + 256 * b.val) :: decodeUTF16 rest := by
  match rest with
  | [] => simp [decodeUTF16, h]
  | [c] => simp [decodeUTF16, h]
  | c :: d :: r => simp [decodeUTF16, h]

theorem decodeUTF16_aSyllable (n : Nat) : decodeUTF16 (aSyllable n) = aChars n := by
  induction n with
  | zero => rfl
  | succ k ih =>
    rw [aSyllable, decodeUTF16_cons_bmp _ _ _ (by decide), ih]
    rfl

theorem utf8_aChars (n : Nat) : utf8 (String.mk (aChars n)) = aRun n := by
  induction n with
  | zero => rfl
  | succ k ih =>
    have e : utf8 (String.mk (aChars (k + 1))) = encodeRune 'a' ++ utf8 (String.mk (aChars k)) := by
      simp [utf8, aChars]
    rw [e, ih]
    rfl

/-- The reading of `[1]` under a table whose only entry has index 1. -/
theorem pinyin_single (bs : List Byte) :
    pinyin (tableDict [⟨1, bs⟩]) [1] = decode bs := by
  simp [pinyin, join, tableDict, Dict.at, Dict.empty]

theorem entriesShared_succ (config : Config) (pinyin : String) (wordlen n : Nat)
    (st : Shared) :
    entriesShared config pinyin wordlen (n + 1) st =
      if (bstr st.scel).1.length ≠ wordlen then ([], st.moved (bstr st.scel).2.2)
      else
        (⟨(bstr st.scel).1, pinyin⟩ ::
          (entriesShared config pinyin wordlen n
            ((st.moved (bstr st.scel).2.2).skipTail.write
              (Emit.text config.withPinYin ⟨(bstr st.scel).1, pinyin⟩))).1,
         (entriesShared config pinyin wordlen n
            ((st.moved (bstr st.scel).2.2).skipTail.write
              (Emit.text config.withPinYin ⟨(bstr st.scel).1, pinyin⟩))).2) := by
  rw [entriesShared]

/-- The reads after a hanzi string move the reading handle over the 12 bytes that
follow it. -/
theorem skipTail_append (st : Shared) (tail rest : List Byte) (h : st.scel = tail ++ rest)
    (ht : tail.length = 12) : st.skipTail = ⟨st.data, st.pos + 12, st.wpos⟩ := by
  have ht2 : 2 ≤ st.scel.length := by rw [h, List.length_append, ht]; omega
  obtain ⟨m2, s2⟩ := moved_append st _ _ (List.take_append_drop 2 st.scel).symm
  have l2 : (st.scel.take 2).length = 2 := by rw [List.length_take]; omega
  rw [l2] at m2 s2
  have ht8 : 8 ≤ (st.scel.drop 2).length := by
    rw [List.length_drop, h, List.length_append, ht]; omega
  obtain ⟨m3, s3⟩ := moved_append ⟨st.data, st.pos + 2, st.wpos⟩ _ _
    (s2.trans (List.take_append_drop 8 (st.scel.drop 2)).symm)
  have l8 : ((st.scel.drop 2).take 8).length = 8 := by rw [List.length_take]; omega
  rw [l8] at m3 s3
  have ht22 : 2 ≤ ((st.scel.drop 2).drop 8).length := by
    rw [List.length_drop, List.length_drop, h, List.length_append, ht]; omega
  obtain ⟨m4, _⟩ := moved_append ⟨st.data, st.pos + 2 + 8, st.wpos⟩ _ _
    (s3.trans (List.take_append_drop 2 ((st.scel.drop 2).drop 8)).symm)
  have l22 : (((st.scel.drop 2).drop 8).take 2).length = 2 := by rw [List.length_take]; omega
  rw [l22] at m4
  unfold Shared.skipTail
  rw [read_of_le 2 _ ht2]
  simp only
  rw [m2, s2, read_of_le 8 _ ht8]
  simp only
  rw [m3, s3, readBytes_of_le 2 _ ht22]
  simp only
  rw [m4]

/-- At the end of the shared file the inner loop writes nothing when a hanzi string
of at least one character is expected. -/
theorem entriesShared_nil (config : Config) (pinyin : String) (wordlen n : Nat) (st : Shared)
    (h : st.scel = []) (hw : wordlen ≠ 0) :
    (entriesShared config pinyin wordlen n st).1 = [] := by
  cases n with
  | zero => rfl
  | succ k =>
    rw [entriesShared_succ, h]
    have hb : (bstr ([] : List Byte)).1.length = 0 := by decide
    have hne : (bstr ([] : List Byte)).1.length ≠ wordlen := by
      rw [hb]; exact fun h0 => hw h0.symm
    rw [if_pos hne]

/-- On the shared file an entry whose hanzi string has the expected length is written
over the file at the offset of the writing handle, and the loop goes on after the 12
trailing bytes of the entry. -/
theorem entriesShared_match (config : Config) (pinyin : String) (wordlen n : Nat)
    (st : Shared) (w : WordEntry) (rest : List Byte) (h : st.scel = w.bytes ++ rest)
    (hl : w.hanzi.length < 65536) (ht : w.tail.length = 12)
    (hm : (decode w.hanzi).length = wordlen) :
    entriesShared config pinyin wordlen (n + 1) st =
      (⟨decode w.hanzi, pinyin⟩ ::
        (entriesShared config pinyin wordlen n
          ((⟨st.data, st.pos + w.bytes.length, st.wpos⟩ : Shared).write
            (Emit.text config.withPinYin ⟨decode w.hanzi, pinyin⟩))).1,
       (entriesShared config pinyin wordlen n
          ((⟨st.data, st.pos + w.bytes.length, st.wpos⟩ : Shared).write
            (Emit.text config.withPinYin ⟨decode w.hanzi, pinyin⟩))).2) := by
  have h1 : st.scel = encBstr w.hanzi ++ (w.tail ++ rest) := by
    rw [h, WordEntry.bytes, List.append_assoc]
  have hb : bstr st.scel = (decode w.hanzi, none, w.tail ++ rest) := by
    rw [h1, bstr_encBstr _ _ hl]
  obtain ⟨m1, s1⟩ := moved_append st _ _ h1
  have hk : (⟨st.data, st.pos + (encBstr w.hanzi).length, st.wpos⟩ : Shared).skipTail =
      ⟨st.data, st.pos + (encBstr w.hanzi).length + 12, st.wpos⟩ :=
    skipTail_append _ _ _ s1 ht
  have hpos : st.pos + (encBstr w.hanzi).length + 12 = st.pos + w.bytes.length := by
    rw [WordEntry.bytes, List.length_append, ht]; omega
  rw [entriesShared_succ, hb]
  simp only [hm, ne_eq, not_true_eq_false, if_false]
  rw [m1, hk, hpos]

/-- On the shared file a well-formed group with one entry is decoded, and its record
is written over the file at the offset of the writing handle. -/
theorem groupShared_one (config : Config) (dict : Dict) (st : Shared) (g : WordGroup)
    (w : WordEntry) (rest : List Byte) (h : st.scel = g.bytes ++ rest) (hs : g.Sized)
    (hm : g.Matched) (hw : g.words = [w]) :
    groupShared config dict st =
      ([⟨decode w.hanzi, pinyin dict g.indexes⟩], none,
        (⟨st.data, st.pos + g.bytes.length, st.wpos⟩ : Shared).write
          (Emit.text config.withPinYin ⟨decode w.hanzi, pinyin dict g.indexes⟩)) := by
  obtain ⟨_, h2, h3, h4⟩ := hs
  have hwm : w ∈ g.words := by rw [hw]; simp
  have hsc : st.scel = encLE 2 1 ++
      ((encLE 2 (2 * g.indexes.length) ++ g.indexes.flatMap (encLE 2)) ++ (w.bytes ++ rest)) := by
    rw [h, WordGroup.bytes, WordGroup.head, hw]
    simp [List.append_assoc]
  have hr : read 2 st.scel = (.ok 1,
      (encLE 2 (2 * g.indexes.length) ++ g.indexes.flatMap (encLE 2)) ++ (w.bytes ++ rest)) := by
    rw [hsc, read2_encLE 1 _ (by decide)]
  obtain ⟨m1, s1⟩ := moved_append st _ _ hsc
  have hp : pinyins ((encLE 2 (2 * g.indexes.length) ++ g.indexes.flatMap (encLE 2)) ++
      (w.bytes ++ rest)) dict = ((pinyin dict g.indexes, g.indexes.length), w.bytes ++ rest) :=
    pinyins_head dict g.indexes _ h2 h3
  obtain ⟨m2, s2⟩ := moved_append ⟨st.data, st.pos + (encLE 2 1).length, st.wpos⟩ _ _ s1
  have he := entriesShared_match config (pinyin dict g.indexes) g.indexes.length 0
    ⟨st.data, st.pos + (encLE 2 1).length +
      (encLE 2 (2 * g.indexes.length) ++ g.indexes.flatMap (encLE 2)).length, st.wpos⟩
    w rest s2 (h4 w hwm).1 (h4 w hwm).2 (hm w hwm)
  have hpos : st.pos + (encLE 2 1).length +
      (encLE 2 (2 * g.indexes.length) ++ g.indexes.flatMap (encLE 2)).length + w.bytes.length
      = st.pos + g.bytes.length := by
    rw [WordGroup.bytes, WordGroup.head, hw]
    simp only [List.length_append, length_encLE, List.flatMap_cons, List.flatMap_nil,
      List.length_nil]
    omega
  rw [groupShared_eq, hr]
  simp only [assigned, errOf]
  rw [m1, s1, hp]
  simp only
  rw [m2, he, entriesShared_zero]
  simp only [hpos]

/-- On the shared file an iteration of the outer loop that finds four bytes and then
fewer bytes than the index sequence they announce writes nothing. -/
theorem groupShared_garbage (config : Config) (dict : Dict) (st : Shared) (a b c d : Byte)
    (rest : List Byte) (h : st.scel = a :: b :: c :: d :: rest)
    (hlen : rest.length < 2 * ((c.val + 256 * d.val) / 2)) :
    (groupShared config dict st).1 = [] ∧ (groupShared config dict st).2.1 = none := by
  have hsc : st.scel = [a, b] ++ (c :: d :: rest) := by rw [h]; rfl
  have hr : read 2 st.scel = (.ok (a.val + 256 * b.val), c :: d :: rest) := by
    rw [h, read_of_le 2 _ (by simp)]
    simp [le]
  obtain ⟨m1, s1⟩ := moved_append st _ _ hsc
  have hp : pinyins (c :: d :: rest) dict =
      ((pinyin dict (List.replicate ((c.val + 256 * d.val) / 2) 0),
        (c.val + 256 * d.val) / 2), []) := by
    unfold pinyins
    rw [read_of_le 2 _ (by simp)]
    simp only [assigned, List.take, List.drop, le, Nat.mul_zero, Nat.add_zero]
    unfold readU16s
    rw [readFull_of_lt _ _ hlen]
  have hk : (c.val + 256 * d.val) / 2 ≠ 0 := by omega
  rw [groupShared_eq, hr]
  simp only [assigned, errOf]
  rw [m1, s1, hp]
  simp only
  exact ⟨entriesShared_nil _ _ _ _ _ (moved_nil_scel _) hk, trivial⟩

/-! ## The container with a late table -/

theorem lateTable_eq_head (wordc : Int) (words table : List Byte) :
    lateTable wordc words table =
      encLE 4 (0x2628 + words.length) ++ (encLE 1 0 ++ (zeros 287 ++
        ((encInt32 wordc ++ zeros (0x2628 - 0x128)) ++ (words ++ table)))) := by
  simp [lateTable, List.append_assoc]

theorem lateTable_drop_wordc (wordc : Int) (words table : List Byte) :
    (lateTable wordc words table).drop 0x124 =
      encInt32 wordc ++ (zeros (0x2628 - 0x128) ++ (words ++ table)) := by
  unfold lateTable
  rw [List.drop_left' (by simp [length_encLE, length_zeros])]
  simp [List.append_assoc]

theorem lateTable_drop (wordc : Int) (words table : List Byte) (k : Nat) :
    (lateTable wordc words table).drop (0x2628 + k) = (words ++ table).drop k := by
  unfold lateTable
  rw [← List.append_assoc, ← List.drop_drop,
    List.drop_left' (by simp [length_encLE, length_encInt32, length_zeros])]

theorem length_lateTable (wordc : Int) (words table : List Byte) :
    (lateTable wordc words table).length = 0x2628 + (words.length + table.length) := by
  simp [lateTable, length_encLE, length_encInt32, length_zeros]
  omega

/-- The conversion of a container with a late table whose output path is its own
path: the outer loop runs on the shared file from the hanzi offset. -/
theorem trans_lateTable_shared (config : Config) (cel : Cel) (file : String) (wordc n : Int)
    (table : List PinyinEntry) (words : List Byte)
    (hw : 0x2628 + words.length < 2 ^ 32)
    (hwlo : -2 ^ 31 ≤ wordc) (hwhi : wordc < 2 ^ 31)
    (hnlo : -2 ^ 31 ≤ n) (hnhi : n < 2 ^ 31) (hn : table.length = n.toNat)
    (hts : ∀ e ∈ table, e.Sized) (heq : withSuffix file ".txt" = file) :
    (trans config cel file (lateTable wordc words (tableBytes n table))).trace =
        (groupsShared config (tableDict table) wordc.toNat none
          ⟨lateTable wordc words (tableBytes n table), 0x2628, 0⟩).1 ∧
      (trans config cel file (lateTable wordc words (tableBytes n table))).panicked = none := by
  obtain ⟨e1, _, e3, e4⟩ := transHeader_layout cel _ _ _ (0x2628 + words.length) 0 wordc
    (lateTable_eq_head wordc words (tableBytes n table)) hw (by decide)
    (lateTable_drop_wordc wordc words (tableBytes n table)) hwlo hwhi
  have hd : pinyindict ((lateTable wordc words (tableBytes n table)).drop
      (transHeader cel (lateTable wordc words (tableBytes n table))).pinyinr)
      = .ok (tableDict table, []) := by
    rw [e1, lateTable_drop, List.drop_left]
    have := pinyindict_tableBytes n table [] hnlo hnhi hn hts
    rwa [List.append_nil] at this
  rw [trans_of_ok_shared config cel file _ _ _ heq hd, e3, e4]
  exact ⟨rfl, rfl⟩

/-! ## A container stored under its own output path -/

theorem length_fixtureGroup_bytes : fixtureGroup.bytes.length = 22 := by decide

theorem selfFile_drop (k : Nat) :
    selfFile.drop (0x2628 + k) =
      (fixtureGroup.bytes ++ fixtureGroup.bytes ++ tableBytes 1 longTable).drop k :=
  lateTable_drop _ _ _ k

theorem length_selfFile : selfFile.length = 29400 := by
  unfold selfFile
  rw [length_lateTable, List.length_append, length_fixtureGroup_bytes]
  simp only [tableBytes, longTable, List.flatMap_cons, List.flatMap_nil, PinyinEntry.bytes,
    encBstr, List.length_append, length_encInt32, length_encLE, length_aSyllable,
    List.length_nil]

theorem write_scel (st : Shared) (s : String) :
    (st.write s).scel = (writeAt st.data st.wpos (utf8 s)).drop st.pos := rfl

theorem selfFile_laid : Laid selfFile longTable [fixtureGroup, fixtureGroup] := by
  have hts : ∀ e ∈ longTable, e.Sized := by
    intro e he
    have he' : e = ⟨1, aSyllable 9790⟩ := List.mem_singleton.mp he
    rw [he']
    refine ⟨by decide, ?_⟩
    show (aSyllable 9790).length < 65536
    rw [length_aSyllable]
    norm_num
  refine ⟨0x2628 + (fixtureGroup.bytes ++ fixtureGroup.bytes).length, 0, _, _, [],
    tableBytes 1 longTable, by decide, by decide, lateTable_eq_head _ _ _,
    lateTable_drop_wordc _ _ _, by decide, ?_, by decide, hts, ?_, by decide, by decide⟩
  · show selfFile.drop (0x2628 + (fixtureGroup.bytes ++ fixtureGroup.bytes).length) = _
    rw [selfFile_drop, List.drop_left, List.append_nil]
    rfl
  · show selfFile.drop (0x2628 + 0) = _
    rw [selfFile_drop, List.drop_zero]
    simp only [List.flatMap_cons, List.flatMap_nil, List.append_nil, List.append_assoc]

/-- The text of the record of the fixture group with the reading of `n` letters `a`. -/
theorem utf8_text_flag (n : Nat) :
    utf8 (Emit.text true ⟨decode [0x60, 0x4f], decode (aSyllable n)⟩) =
      ([0xe4, 0xbd, 0xa0, 0x09] ++ aRun n) ++ [0x0a] := by
  have e : Emit.text true ⟨decode [0x60, 0x4f], decode (aSyllable n)⟩ =
      decode [0x60, 0x4f] ++ "\t" ++ decode (aSyllable n) ++ "\n" := by simp [Emit.text]
  have h1 : utf8 (decode [0x60, 0x4f]) = [0xe4, 0xbd, 0xa0] := by decide
  have h2 : utf8 "\t" = [0x09] := by decide
  have h3 : utf8 "\n" = [0x0a] := by decide
  have h4 : decode (aSyllable n) = String.mk (aChars n) := by
    rw [decode, decodeUTF16_aSyllable]
  rw [e, utf8_append, utf8_append, utf8_append, h1, h2, h3, h4, utf8_aChars]
  rfl

/-- The text of the record of the fixture group without the reading. -/
theorem utf8_text_plain (p : String) :
    utf8 (Emit.text false ⟨decode [0x60, 0x4f], p⟩) = [0xe4, 0xbd, 0xa0, 0x0a] := by
  have e : Emit.text false ⟨decode [0x60, 0x4f], p⟩ = decode [0x60, 0x4f] ++ "\n" := by
    simp [Emit.text]
  rw [e]
  decide

/-- The first iteration of the outer loop on `selfFile` stored under its own output
path. -/
theorem selfFile_first (config : Config) :
    groupShared config (tableDict longTable) ⟨selfFile, 0x2628, 0⟩ =
      ([⟨decode [0x60, 0x4f], decode (aSyllable 9790)⟩], none,
        (⟨selfFile, 0x2628 + fixtureGroup.bytes.length, 0⟩ : Shared).write
          (Emit.text config.withPinYin ⟨decode [0x60, 0x4f], decode (aSyllable 9790)⟩)) := by
  have hp : pinyin (tableDict longTable) fixtureGroup.indexes = decode (aSyllable 9790) :=
    pinyin_single _
  have h0 : (⟨selfFile, 0x2628, 0⟩ : Shared).scel =
      fixtureGroup.bytes ++ (fixtureGroup.bytes ++ tableBytes 1 longTable) := by
    show selfFile.drop (0x2628 + 0) = _
    rw [selfFile_drop, List.drop_zero, List.append_assoc]
  have h1 := groupShared_one config (tableDict longTable) ⟨selfFile, 0x2628, 0⟩ fixtureGroup
    ⟨[0x60, 0x4f], [10, 0, 100, 0, 0, 0, 0, 0, 0, 0, 0, 0]⟩ _ h0 (by decide) (by decide) rfl
  rw [hp] at h1
  exact h1

/-- With the flag the record of the first group of `selfFile` is 9795 bytes of text:
written at the start of the file it reaches past the second group, which the loop then
reads as letters `a`, and no further record is written. -/
theorem selfFile_flag_trace (input : String) :
    (groupsShared ⟨input, true⟩ (tableDict longTable) 2 none ⟨selfFile, 0x2628, 0⟩).1 =
      [[⟨decode [0x60, 0x4f], decode (aSyllable 9790)⟩], []] := by
  have h4 : aRun 4 = [0x61, 0x61, 0x61, 0x61] := rfl
  have hL : utf8 (Emit.text true ⟨decode [0x60, 0x4f], decode (aSyllable 9790)⟩) =
      ([0xe4, 0xbd, 0xa0, 0x09] ++ aRun 9786) ++ [0x61, 0x61, 0x61, 0x61, 0x0a] := by
    rw [utf8_text_flag, show aRun 9790 = aRun 9786 ++ aRun 4 from aRun_add 9786 4, h4]
    simp only [List.append_assoc, List.cons_append, List.nil_append]
  have hLlen : (utf8 (Emit.text true ⟨decode [0x60, 0x4f], decode (aSyllable 9790)⟩)).length
      = 9795 := by
    rw [utf8_text_flag]
    simp [length_aRun]
  have hPlen : (([0xe4, 0xbd, 0xa0, 0x09] : List Byte) ++ aRun 9786).length =
      0x2628 + fixtureGroup.bytes.length := by
    rw [length_fixtureGroup_bytes]
    simp [length_aRun]
  have hs1 : ((⟨selfFile, 0x2628 + fixtureGroup.bytes.length, 0⟩ : Shared).write
      (Emit.text true ⟨decode [0x60, 0x4f], decode (aSyllable 9790)⟩)).scel =
      0x61 :: 0x61 :: 0x61 :: 0x61 :: (0x0a :: selfFile.drop 9795) := by
    rw [write_scel]
    show (writeAt selfFile 0 _).drop (0x2628 + fixtureGroup.bytes.length) = _
    rw [writeAt_zero, hLlen, hL, List.append_assoc, List.drop_left' hPlen]
    simp only [List.cons_append, List.nil_append]
  have hlen : (0x0a :: selfFile.drop 9795).length <
      2 * (((0x61 : Byte).val + 256 * (0x61 : Byte).val) / 2) := by
    rw [List.length_cons, List.length_drop, length_selfFile]
    decide
  have hg := groupShared_garbage ⟨input, true⟩ (tableDict longTable) _ 0x61 0x61 0x61 0x61 _
    hs1 hlen
  show (groupsShared ⟨input, true⟩ (tableDict longTable) (1 + 1) none ⟨selfFile, 0x2628, 0⟩).1
    = _
  rw [groupsShared_succ, selfFile_first]
  simp only
  show _ :: (groupsShared ⟨input, true⟩ (tableDict longTable) (0 + 1) none _).1 = _
  rw [groupsShared_succ, hg.1, groupsShared_zero]

/-- Without the flag the record of the first group of `selfFile` is 4 bytes of text:
the second group is read as it was, and its record is written. -/
theorem selfFile_plain_trace (input : String) :
    (groupsShared ⟨input, false⟩ (tableDict longTable) 2 none ⟨selfFile, 0x2628, 0⟩).1 =
      [[⟨decode [0x60, 0x4f], decode (aSyllable 9790)⟩],
        [⟨decode [0x60, 0x4f], decode (aSyllable 9790)⟩]] := by
  have hp : pinyin (tableDict longTable) fixtureGroup.indexes = decode (aSyllable 9790) :=
    pinyin_single _
  have hs1 : ((⟨selfFile, 0x2628 + fixtureGroup.bytes.length, 0⟩ : Shared).write
      (Emit.text false ⟨decode [0x60, 0x4f], decode (aSyllable 9790)⟩)).scel =
      fixtureGroup.bytes ++ tableBytes 1 longTable := by
    rw [write_scel]
    show (writeAt selfFile 0 _).drop (0x2628 + fixtureGroup.bytes.length) = _
    rw [drop_writeAt _ _ _ _ (by rw [utf8_text_plain, length_fixtureGroup_bytes]; decide)
      (Nat.zero_le _), selfFile_drop, List.append_assoc, List.drop_left]
  have h2 := groupShared_one ⟨input, false⟩ (tableDict longTable) _ fixtureGroup
    ⟨[0x60, 0x4f], [10, 0, 100, 0, 0, 0, 0, 0, 0, 0, 0, 0]⟩ _ hs1 (by decide) (by decide) rfl
  rw [hp] at h2
  show (groupsShared ⟨input, false⟩ (tableDict longTable) (1 + 1) none ⟨selfFile, 0x2628, 0⟩).1
    = _
  rw [groupsShared_succ, selfFile_first]
  simp only
  show _ :: (groupsShared ⟨input, false⟩ (tableDict longTable) (0 + 1) none _).1 = _
  rw [groupsShared_succ, h2, groupsShared_zero]

/-- The conversion of `selfFile` stored as `in.txt`: no panic, and the records are
those of the shared loop. -/
theorem trans_selfFile (config : Config) :
    (trans config celZero "in.txt" selfFile).trace =
        (groupsShared config (tableDict longTable) 2 none ⟨selfFile, 0x2628, 0⟩).1 ∧
      (trans config celZero "in.txt" selfFile).panicked = none :=
  trans_lateTable_shared config celZero "in.txt" 2 1 longTable
    (fixtureGroup.bytes ++ fixtureGroup.bytes) (by decide) (by decide) (by decide) (by decide)
    (by decide) rfl
    (fun e he => by
      have he' : e = ⟨1, aSyllable 9790⟩ := List.mem_singleton.mp he
      rw [he']
      refine ⟨by decide, ?_⟩
      show (aSyllable 9790).length < 65536
      rw [length_aSyllable]
      norm_num)
    (by decide)

/-- The record of the word group of `selfFile`: the hanzi U+4F60 and a reading of
9790 letters `a`. -/
theorem selfFile_record :
    (⟨decode [0x60, 0x4f], decode (aSyllable 9790)⟩ : Emit) = ⟨"你", String.mk (aChars 9790)⟩ := by
  have h1 : decode [0x60, 0x4f] = "你" := by decide
  have h2 : decode (aSyllable 9790) = String.mk (aChars 9790) := by
    rw [decode, decodeUTF16_aSyllable]
  rw [h1, h2]

theorem selfFile_records :
    fixtureGroup.records (tableDict longTable) = [⟨"你", String.mk (aChars 9790)⟩] := by
  have hp : pinyin (tableDict longTable) fixtureGroup.indexes = decode (aSyllable 9790) :=
    pinyin_single _
  have e : fixtureGroup.records (tableDict longTable) =
      [⟨decode [0x60, 0x4f], pinyin (tableDict longTable) fixtureGroup.indexes⟩] := rfl
  rw [e, hp, selfFile_record]

/-! ## The claims -/

/-- C1, as stated, fails: `selfFile` is a well-formed container with two groups of one
entry each; stored as `in.txt` its output path is its own path, and with the
with-pinyin flag the 9795 bytes of the first line, written at the start of the file,
reach past the second group before it is read: one line is written, not two. -/
theorem trans_overwrites_input :
    withSuffix "in.txt" ".txt" = "in.txt" ∧
      Laid selfFile longTable [fixtureGroup, fixtureGroup] ∧
      [fixtureGroup, fixtureGroup].map (WordGroup.records (tableDict longTable)) =
        [[⟨"你", String.mk (aChars 9790)⟩], [⟨"你", String.mk (aChars 9790)⟩]] ∧
      (trans ⟨"", true⟩ celZero "in.txt" selfFile).panicked = none ∧
      (trans ⟨"", true⟩ celZero "in.txt" selfFile).trace =
        [[⟨"你", String.mk (aChars 9790)⟩], []] := by
  refine ⟨by decide, selfFile_laid, ?_, (trans_selfFile _).2, ?_⟩
  · simp only [List.map_cons, List.map_nil, selfFile_records]
  · rw [(trans_selfFile _).1, selfFile_flag_trace, selfFile_record]

/-- C1, amended: for every well-formed container whose output path is not its own
path (pinyin table of `n` entries at the offset stored at 0x00; `wordc` groups at the
selected hanzi-table offset; every group with its entry count, byte count, indexes,
and entries whose hanzi strings have as many characters as there are indexes, each
followed by 12 bytes) `trans` does not panic and writes exactly one line per entry, in
group order then entry order: the hanzi, a tab, the apostrophe-joined syllables and a
newline with the with-pinyin flag; the hanzi and a newline without it. -/
theorem trans_wellformed (config : Config) (cel : Cel) (file : String)
    (data t0 t1 t2 t3 : List Byte)
    (pinyinr ver : Nat) (n wordc : Int) (table : List PinyinEntry) (gs : List WordGroup)
    (h0 : data = encLE 4 pinyinr ++ (encLE 1 ver ++ t0))
    (hp : pinyinr < 2 ^ 32) (hv : ver < 256)
    (hwc : data.drop 0x124 = encInt32 wordc ++ t1)
    (hwordc : wordc = gs.length) (hgs : gs.length < 2 ^ 31)
    (hpy : data.drop pinyinr = tableBytes n table ++ t2)
    (hn : n = table.length) (htl : table.length < 2 ^ 31)
    (hts : ∀ e ∈ table, e.Sized)
    (hhz : data.drop (if ver = 0x45 then 0x26c4 else 0x2628) = gs.flatMap WordGroup.bytes ++ t3)
    (hs : ∀ g ∈ gs, g.Sized) (hm : ∀ g ∈ gs, g.Matched)
    (hne : withSuffix file ".txt" ≠ file) :
    (trans config cel file data).panicked = none ∧
    (trans config cel file data).trace = gs.map (WordGroup.records (tableDict table)) ∧
    (trans config cel file data).out =
      String.join (gs.flatMap fun g => g.words.map fun w =>
        if config.withPinYin then
          decode w.hanzi ++ "\t"
            ++ "'".intercalate (g.indexes.map fun i => (tableDict table i).getD "") ++ "\n"
        else decode w.hanzi ++ "\n") := by
  have hwlo : -2 ^ 31 ≤ wordc := by rw [hwordc]; norm_num; omega
  have hwhi : wordc < 2 ^ 31 := by rw [hwordc]; exact_mod_cast hgs
  obtain ⟨e1, _, e3, e4⟩ := transHeader_layout cel data t0 t1 pinyinr ver wordc h0 hp hv hwc
    hwlo hwhi
  have hnlo : -2 ^ 31 ≤ n := by rw [hn]; norm_num; omega
  have hnhi : n < 2 ^ 31 := by rw [hn]; exact_mod_cast htl
  have hd : pinyindict (data.drop (transHeader cel data).pinyinr) = .ok (tableDict table, t2) := by
    rw [e1, hpy]
    exact pinyindict_tableBytes n table t2 hnlo hnhi (by rw [hn]; rfl) hts
  have hg : groups (tableDict table) (transHeader cel data).wordc.toNat none
      (data.drop (transHeader cel data).hzr) =
      (gs.map (WordGroup.records (tableDict table)), none, t3) := by
    rw [e3, e4, hhz, hwordc]
    have h := groups_run (tableDict table) gs 0 t3 hs hm
    simpa [groups_zero] using h
  rw [trans_of_ok_distinct config cel file data _ _ hne hd]
  simp only [hg]
  refine ⟨trivial, trivial, ?_⟩
  rw [map_text_records]

/-- The minimal fixture, stored as `fixture.scel` (dictionary 1 ↦ "ni", one group
`[1]`, one entry U+4F60) is well-formed, and `trans` writes the hanzi, a tab, "ni" and
a newline with the flag and the hanzi and a newline without it. -/
theorem trans_wellformed_witness :
    (trans ⟨"", true⟩ celZero "fixture.scel" fixture).out = "你\tni\n" ∧
      (trans ⟨"", false⟩ celZero "fixture.scel" fixture).out = "你\n" :=
  ⟨(trans_wellformed ⟨"", true⟩ celZero "fixture.scel" fixture _ _ _ [] 0x1540 0 1 1 fixtureTable [fixtureGroup]
      (container_eq_head _ _ _ _ _ _) (by decide) (by decide)
      (container_drop_wordc _ _ _ _ _ _) (by decide) (by decide)
      (container_drop_pinyinr _ _ _ _ _ _ (by decide)) (by decide) (by decide) (by decide)
      ((container_drop_hzr _ _ _ _ _ _ (by decide) (by decide)).trans (by decide))
      (by decide) (by decide) (by decide)).2.2.trans (by decide),
   (trans_wellformed ⟨"", false⟩ celZero "fixture.scel" fixture _ _ _ [] 0x1540 0 1 1 fixtureTable [fixtureGroup]
      (container_eq_head _ _ _ _ _ _) (by decide) (by decide)
      (container_drop_wordc _ _ _ _ _ _) (by decide) (by decide)
      (container_drop_pinyinr _ _ _ _ _ _ (by decide)) (by decide) (by decide) (by decide)
      ((container_drop_hzr _ _ _ _ _ _ (by decide) (by decide)).trans (by decide))
      (by decide) (by decide) (by decide)).2.2.trans (by decide)⟩

/-- C2: for every dictionary and index sequence, `pinyin(dict, indexes)` is the
strings `dict[i]`, in sequence order, joined by a single apostrophe, an absent index
contributing the empty string; it is empty for the empty sequence, and when no
syllable contains an apostrophe it holds exactly `len(indexes) - 1` of them. -/
theorem pinyin_joined (dict : Dict) (indexes : List Nat) :
    pinyin dict indexes = "'".intercalate (indexes.map fun i => (dict i).getD "") ∧
    (indexes = [] → pinyin dict indexes = "") ∧
    ((∀ i ∈ indexes, apostrophe ∉ ((dict i).getD "").data) →
      (pinyin dict indexes).data.count apostrophe = indexes.length - 1) := by
  refine ⟨?_, ?_, ?_⟩
  · simp [pinyin, join_eq_intercalate, Dict.at]
  · intro h; subst h; rfl
  · intro h
    unfold pinyin
    rw [count_join]
    · simp
    · intro s hs
      obtain ⟨i, hi, rfl⟩ := List.mem_map.mp hs
      exact h i hi

/-- The reading of `[1, 2, 7]` under the dictionary 1 ↦ "ni", 2 ↦ "hao": index 7 is
absent and contributes the empty string, and there are two apostrophes. -/
theorem pinyin_joined_witness :
    pinyin ((Dict.empty.set 1 "ni").set 2 "hao") [1, 2, 7] = "ni'hao'" ∧
      (pinyin ((Dict.empty.set 1 "ni").set 2 "hao") [1, 2, 7]).data.count apostrophe = 2 :=
  ⟨by decide,
    (pinyin_joined ((Dict.empty.set 1 "ni").set 2 "hao") [1, 2, 7]).2.2 (by decide)⟩

/-- C3: for every group of `n` entries whose index sequence has `m` indexes, if the
entries `0..k-1` each have a hanzi string of exactly `m` characters and entry `k`
(`k < n`) has a hanzi string of another character count, then decoding that group
writes exactly the `k` records of the entries `0..k-1`, in order, and nothing for the
entries `k..n-1`. -/
theorem group_stops_at_mismatch (dict : Dict) (g : WordGroup) (rest : List Byte) (k : Nat)
    (hs : g.Sized) (hk : k < g.words.length)
    (hgood : ∀ w ∈ g.words.take k, (decode w.hanzi).length = g.indexes.length)
    (hbad : (decode (g.words.get ⟨k, hk⟩).hanzi).length ≠ g.indexes.length) :
    (group dict (g.bytes ++ rest)).1 = (g.records dict).take k ∧
      (group dict (g.bytes ++ rest)).1.length = k := by
  rw [group_mismatch_split dict g _ _ _ rest hs (words_split g k hk) hgood hbad]
  refine ⟨?_, ?_⟩
  · simp [WordGroup.records, List.map_take]
  · simp [List.length_take]; omega

/-- In `anomalousGroup` (two indexes) entry 0 has two characters and entry 1 has one:
only the record of entry 0 is written. -/
theorem group_stops_at_mismatch_witness :
    (group (tableDict twoTable) (anomalousGroup.bytes ++ [])).1 = [⟨"你好", "ni'hao"⟩] :=
  (group_stops_at_mismatch (tableDict twoTable) anomalousGroup [] 1 (by decide) (by decide)
    (by decide) (by decide)).1.trans (by decide)

/-- C4, as stated, fails: in `anomalousFile` the well-formed `fixtureGroup` follows the
anomalous group, whose entry 1 does not match; the second iteration of the outer loop
starts in the 12 trailing bytes of that entry and writes nothing, so the record of
`fixtureGroup` is never written. -/
theorem next_group_not_decoded :
    (trans ⟨"", true⟩ celZero "anomalous.scel" anomalousFile).trace = [[⟨"你好", "ni'hao"⟩], []] ∧
      (trans ⟨"", true⟩ celZero "anomalous.scel" anomalousFile).out = "你好\tni'hao\n" ∧
      fixtureGroup.Sized ∧ fixtureGroup.Matched ∧
      fixtureGroup.records (tableDict twoTable) = [⟨"你", "ni"⟩] := by
  have h := trans_container ⟨"", true⟩ celZero "anomalous.scel" 0x1540 0 2 2 twoTable 0x2628
    (anomalousGroup.bytes ++ fixtureGroup.bytes) (by decide) (by decide) (by decide)
    (by decide) (by decide) (by decide) (by decide) (by decide) (by decide) (by decide)
    (by decide) (by decide)
  exact ⟨h.1.trans (by decide), h.2.1.trans (by decide), by decide, by decide, by decide⟩

/-- C4, amended: after a hanzi-length mismatch on entry `k` the next iteration of the
outer loop reads on right after the hanzi string of entry `k`; when a well-formed
group begins at that position, that iteration decodes it from its first byte and
writes exactly its records. -/
theorem next_group_from_cursor (dict : Dict) (g g2 : WordGroup) (rest : List Byte) (k : Nat)
    (hs : g.Sized) (hk : k < g.words.length)
    (hgood : ∀ w ∈ g.words.take k, (decode w.hanzi).length = g.indexes.length)
    (hbad : (decode (g.words.get ⟨k, hk⟩).hanzi).length ≠ g.indexes.length)
    (hs2 : g2.Sized) (hm2 : g2.Matched) :
    groups dict 2 none
        (g.head ++ ((g.words.take k).flatMap WordEntry.bytes
          ++ (encBstr (g.words.get ⟨k, hk⟩).hanzi ++ (g2.bytes ++ rest)))) =
      ([(g.records dict).take k, g2.records dict], none, rest) := by
  rw [groups_succ, group_mismatch_stream dict g _ _ _ _ hs (words_split g k hk) hgood hbad]
  simp only
  rw [groups_succ, group_wellformed dict g2 rest hs2 hm2]
  simp [groups_zero, WordGroup.records, List.map_take]

/-- The stream that holds `anomalousGroup` up to the hanzi string of its entry 1 and
then `fixtureGroup`: the second iteration writes the record of `fixtureGroup`. -/
theorem next_group_from_cursor_witness :
    groups (tableDict twoTable) 2 none
        (anomalousGroup.head ++ ((anomalousGroup.words.take 1).flatMap WordEntry.bytes
          ++ (encBstr [0x60, 0x4f] ++ (fixtureGroup.bytes ++ [])))) =
      ([[⟨"你好", "ni'hao"⟩], [⟨"你", "ni"⟩]], none, []) :=
  (next_group_from_cursor (tableDict twoTable) anomalousGroup fixtureGroup [] 1 (by decide)
    (by decide) (by decide) (by decide) (by decide) (by decide)).trans (by decide)

/-- C5: when the word count at 0x124 is readable, `trans` reaches the outer loop and
every read of a group's entry count succeeds (the loop is left with `err == nil`), the
loop runs exactly `max(wordc, 0)` iterations, one tick per group, whatever number of
records the groups write; a zero or negative word count gives no iteration and no
output. -/
theorem outer_loop_ticks (config : Config) (cel : Cel) (file : String) (data : List Byte)
    (wordc : Int)
    (hwc : (readInt32 (data.drop 0x124)).1 = .ok wordc) :
    ((trans config cel file data).panicked = none → (trans config cel file data).err = none →
        (trans config cel file data).trace.length = wordc.toNat) ∧
      (wordc ≤ 0 →
        (trans config cel file data).trace = [] ∧ (trans config cel file data).out = "") := by
  have hw : (transHeader cel data).wordc = wordc := by
    rw [transHeader_wordc, hwc]; rfl
  cases h : pinyindict (data.drop (transHeader cel data).pinyinr) with
  | error e =>
    rw [trans_of_error config cel file data e h]
    refine ⟨?_, ?_⟩
    · intro hp
      cases hp
    · intro _
      exact ⟨rfl, rfl⟩
  | ok v =>
    rw [trans_of_ok config cel file data v.1 v.2 h, hw]
    refine ⟨fun _ he => wordList_length _ _ _ _ _ _ he, fun hle => ?_⟩
    have h0 : wordc.toNat = 0 := by omega
    rw [h0, wordList_zero]
    exact ⟨rfl, rfl⟩

/-- The word count of `anomalousFile` is 2, and both iterations read their entry
count; the first writes one record, the second none: the loop runs twice. -/
theorem outer_loop_ticks_witness :
    (trans ⟨"", true⟩ celZero "anomalous.scel" anomalousFile).trace.length = 2 :=
  (outer_loop_ticks ⟨"", true⟩ celZero "anomalous.scel" anomalousFile 2
    (by
      rw [anomalousFile, container_drop_wordc,
        readInt32_encInt32 2 _ (by decide) (by decide)])).1
    (trans_container ⟨"", true⟩ celZero "anomalous.scel" 0x1540 0 2 2 twoTable 0x2628
      (anomalousGroup.bytes ++ fixtureGroup.bytes) (by decide) (by decide) (by decide)
      (by decide) (by decide) (by decide) (by decide) (by decide) (by decide) (by decide)
      (by decide) (by decide)).2.2.1
    ((trans_container ⟨"", true⟩ celZero "anomalous.scel" 0x1540 0 2 2 twoTable 0x2628
      (anomalousGroup.bytes ++ fixtureGroup.bytes) (by decide) (by decide) (by decide)
      (by decide) (by decide) (by decide) (by decide) (by decide) (by decide) (by decide)
      (by decide) (by decide)).2.2.2.trans (by decide))

/-- C6: for every file whose byte at offset 0x04 is readable, whatever the rest of
the file, its path, the flag and the earlier value of `cel`: the hanzi offset is 0x26c4
if that byte is 0x45 and 0x2628 for every other value, and the word list is decoded
from that offset of the file; when the output file is not the input file, that is the
loop `groups` on the bytes at that offset. -/
theorem hanzi_offset_by_version (config : Config) (cel : Cel) (file : String)
    (data : List Byte) (b : Byte) (h : data[4]? = some b) :
    (trans config cel file data).cel.hzr = (if b.val = 0x45 then 0x26c4 else 0x2628) ∧
      ((trans config cel file data).panicked = none →
        (trans config cel file data).trace =
          (wordList config (trans config cel file data).cel.dict
            (trans config cel file data).cel.wordc.toNat (decide (withSuffix file ".txt" = file))
            data (if b.val = 0x45 then 0x26c4 else 0x2628)).1) ∧
      (withSuffix file ".txt" ≠ file → (trans config cel file data).panicked = none →
        (trans config cel file data).trace =
          (groups (trans config cel file data).cel.dict
            (trans config cel file data).cel.wordc.toNat none
            (data.drop (if b.val = 0x45 then 0x26c4 else 0x2628))).1) := by
  have hz : (trans config cel file data).cel.hzr = (if b.val = 0x45 then 0x26c4 else 0x2628) := by
    rw [trans_cel_hzr, transHeader_hzr, transHeader_ver_of_byte cel data b h]
  have ht : (trans config cel file data).panicked = none →
      (trans config cel file data).trace =
        (wordList config (trans config cel file data).cel.dict
          (trans config cel file data).cel.wordc.toNat (decide (withSuffix file ".txt" = file))
          data (if b.val = 0x45 then 0x26c4 else 0x2628)).1 := by
    intro hp
    rw [← hz]
    exact trans_trace_of_not_panicked config cel file data hp
  refine ⟨hz, ht, fun hne hp => ?_⟩
  rw [ht hp, decide_eq_false hne, wordList_distinct]

/-- Both branches on fixed fixtures: the version byte of `sentinelFixture` is 0x45
and its word list is read at 0x26c4; that of `fixture` is 0 and its word list is read
at 0x2628. -/
theorem hanzi_offset_by_version_witness :
    (trans ⟨"", true⟩ celZero "sentinel.scel" sentinelFixture).cel.hzr = 0x26c4 ∧
      (trans ⟨"", true⟩ celZero "fixture.scel" fixture).cel.hzr = 0x2628 :=
  ⟨(hanzi_offset_by_version ⟨"", true⟩ celZero "sentinel.scel" sentinelFixture (Fin.ofNat (0x45 % 256))
      (container_version_byte _ _ _ _ _ _)).1.trans (by decide),
    (hanzi_offset_by_version ⟨"", true⟩ celZero "fixture.scel" fixture (Fin.ofNat (0 % 256))
      (container_version_byte _ _ _ _ _ _)).1.trans (by decide)⟩

/-- C7: for every file whose pinyin-table offset (the `u32` at 0x00) points at or
past the end of the file, or leaves fewer than 4 bytes for the entry count of the
table, the conversion ends in the panic raised in `pinyindict` and recovered in
`trans`, and no record is written. -/
theorem pinyin_offset_past_end (config : Config) (cel : Cel) (file : String) (data : List Byte)
    (h4 : 4 ≤ data.length) (hp : data.length < le (data.take 4) + 4) :
    (trans config cel file data).panicked =
        some (if data.length ≤ le (data.take 4) then .EOF else .ErrUnexpectedEOF) ∧
      (trans config cel file data).trace = [] ∧ (trans config cel file data).out = "" := by
  have e1 : (transHeader cel data).pinyinr = le (data.take 4) := by
    rw [transHeader_pinyinr, read_of_le 4 data h4]; rfl
  have hd : pinyindict (data.drop (transHeader cel data).pinyinr) =
      .error (if data.length ≤ le (data.take 4) then .EOF else .ErrUnexpectedEOF) := by
    rw [e1]
    unfold pinyindict readInt32 read
    rw [readFull_of_lt 4 _ (by simp; omega)]
    simp only [List.isEmpty_eq_true, List.drop_eq_nil_iff]
  rw [trans_of_error config cel file data _ hd]
  exact ⟨rfl, rfl, rfl⟩

/-- A file of 8 bytes whose pinyin-table offset is 0x1540: the count read in
`pinyindict` hits the end of the file. -/
theorem pinyin_offset_past_end_witness :
    (trans ⟨"", true⟩ celZero "short.scel" [0x40, 0x15, 0, 0, 0, 0, 0, 0]).panicked = some .EOF ∧
      (trans ⟨"", true⟩ celZero "short.scel" [0x40, 0x15, 0, 0, 0, 0, 0, 0]).trace = [] ∧
      (trans ⟨"", true⟩ celZero "short.scel" [0x40, 0x15, 0, 0, 0, 0, 0, 0]).out = "" :=
  pinyin_offset_past_end ⟨"", true⟩ celZero "short.scel" [0x40, 0x15, 0, 0, 0, 0, 0, 0] (by decide)
    (by decide)

/-- C8, evaluated at a failing input: `truncatedFile` ends in the middle of the hanzi
string of its only entry, so the data read of `bstr` fails; `trans` still writes a
record, whose hanzi is the U+0000 of the untouched buffer. -/
theorem record_after_failed_read :
    (bstr ((fixtureGroup.bytes.take 9).drop 6)).2.1 = some .ErrUnexpectedEOF ∧
      (trans ⟨"", true⟩ celZero "truncated.scel" truncatedFile).trace = [[⟨"\x00", "ni"⟩]] ∧
      (trans ⟨"", true⟩ celZero "truncated.scel" truncatedFile).out = "\x00\tni\n" := by
  have h := trans_container ⟨"", true⟩ celZero "truncated.scel" 0x1540 0 1 1 fixtureTable 0x2628
    (fixtureGroup.bytes.take 9) (by decide) (by decide) (by decide)
    (by decide) (by decide) (by decide) (by decide) (by decide) (by decide) (by decide)
    (by decide) (by decide)
  exact ⟨by decide, h.1.trans (by decide), h.2.1.trans (by decide)⟩

/-- C9: for every well-formed pinyin table (an `int32` count `n`, then the entries,
each an index and a length-prefixed string) `pinyindict` returns the map whose keys are
exactly the indexes occurring in the table, each mapped to the syllable of the last
entry carrying it, and consumes exactly `4 + Σ (2 + 2 + Lᵢ)` bytes; for `n ≤ 0` the map
is empty and only the 4 count bytes are consumed. -/
theorem pinyindict_wellformed (n : Int) (es : List PinyinEntry) (rest : List Byte)
    (hlo : -2 ^ 31 ≤ n) (hhi : n < 2 ^ 31) (hn : es.length = n.toNat)
    (hs : ∀ e ∈ es, e.Sized) :
    ∃ dict, pinyindict (tableBytes n es ++ rest) = .ok (dict, rest) ∧
      (∀ i, dict i = ((es.filter fun e => e.idx = i).getLast?).map fun e => decode e.py) ∧
      (∀ i, (dict i).isSome ↔ ∃ e ∈ es, e.idx = i) ∧
      rest = (tableBytes n es ++ rest).drop (4 + (es.map fun e => 2 + 2 + e.py.length).sum) ∧
      (n ≤ 0 → (∀ i, dict i = none) ∧ rest = (tableBytes n es ++ rest).drop 4) := by
  have hlen : (tableBytes n es).length = 4 + (es.map fun e => 2 + 2 + e.py.length).sum := by
    rw [tableBytes, List.length_append, length_encInt32, length_tableEntries]
  refine ⟨tableDict es, pinyindict_tableBytes n es rest hlo hhi hn hs, tableDict_eq_last es,
    tableDict_isSome es, ?_, ?_⟩
  · rw [← hlen, List.drop_left]
  · intro hle
    have h0 : es = [] := List.length_eq_zero.mp (by omega)
    subst h0
    refine ⟨fun i => rfl, ?_⟩
    have h4 : (tableBytes n []).length = 4 := by simpa using hlen
    rw [← h4, List.drop_left]

/-- The table `dupTable` followed by one more byte: index 1 maps to "hao", the later
of its two entries; index 2 is absent; the byte after the table is not consumed. -/
theorem pinyindict_wellformed_witness :
    ∃ dict, pinyindict (tableBytes 2 dupTable ++ [7]) = .ok (dict, [7]) ∧
      dict 1 = some "hao" ∧ dict 2 = none := by
  obtain ⟨dict, h1, h2, _⟩ := pinyindict_wellformed 2 dupTable [7] (by decide) (by decide)
    (by decide) (by decide)
  exact ⟨dict, h1, (h2 1).trans (by decide), (h2 2).trans (by decide)⟩

/-- C10, evaluated at a failing input: `truncatedTable` declares two entries and ends
after the entry 0 ↦ "a", which was read in full; the second iteration, all of whose
reads fail, assigns the empty string to key 0. -/
theorem pinyindict_truncated :
    ((pinyindict truncatedTable).toOption.map fun r => (r.1 0, r.2)) = some (some "", []) ∧
      tableDict [⟨0, [0x61, 0]⟩] 0 = some "a" := by
  exact ⟨by decide, by decide⟩

/-- C11: when the length prefix is readable, `bstr` reads the little-endian `u16`
byte count `L` and returns an error if and only if fewer than `L` bytes remain after
it; when `L` bytes remain it returns the UTF-16LE decoding of exactly these bytes,
untrimmed, and leaves the file `2 + L` bytes further on. -/
theorem bstr_reads_length_prefixed (f : List Byte) (h2 : 2 ≤ f.length) :
    ((bstr f).2.1 ≠ none ↔ (f.drop 2).length < le (f.take 2)) ∧
      (le (f.take 2) ≤ (f.drop 2).length →
        bstr f = (decode ((f.drop 2).take (le (f.take 2))), none,
          f.drop (2 + le (f.take 2)))) := by
  unfold bstr
  rw [read_of_le 2 f h2]
  simp only [assigned]
  by_cases hl : le (f.take 2) ≤ (f.drop 2).length
  · rw [readBytes_of_le _ _ hl]
    simp only [errOf, List.drop_drop]
    refine ⟨?_, fun _ => ?_⟩
    · constructor
      · intro h; exact absurd rfl h
      · intro h; omega
    · trivial
  · have hlt : (f.drop 2).length < le (f.take 2) := by omega
    rw [readBytes_of_lt _ _ hlt]
    simp only [errOf]
    exact ⟨⟨fun _ => hlt, fun _ h => (by cases h)⟩, fun h => absurd h hl⟩

/-- A string of 4 bytes, U+4F60 and U+0000, followed by one more byte: the trailing
U+0000 is kept, and the byte after the string is not consumed. -/
theorem bstr_reads_length_prefixed_witness :
    bstr [4, 0, 0x60, 0x4f, 0, 0, 9] = ("你\x00", none, [9]) :=
  ((bstr_reads_length_prefixed [4, 0, 0x60, 0x4f, 0, 0, 9] (by decide)).2 (by decide)).trans
    (by decide)

/-- C12, evaluated at a failing input: in a file of 8 zero bytes the word count at
0x124 cannot be read, yet `trans` does not panic: the error of that read is dropped,
the dictionary stage finds the count 0 at offset 0, and the conversion ends without a
fatal error. -/
theorem unreadable_wordc_not_fatal :
    errOf (readInt32 (([0, 0, 0, 0, 0, 0, 0, 0] : List Byte).drop 0x124)).1 = some .EOF ∧
      (trans ⟨"", true⟩ celZero "short.scel" [0, 0, 0, 0, 0, 0, 0, 0]).panicked = none :=
  ⟨by decide,
    (trans_panicked_iff ⟨"", true⟩ celZero "short.scel" [0, 0, 0, 0, 0, 0, 0, 0]).mpr
      (by rw [transHeader_pinyinr_of_le _ _ (by decide)]; decide)⟩

/-- C13: no state crosses file boundaries: for every file, path and flag value, the text
`trans` writes and whether the conversion ends in a panic are the same for every
earlier value of the global `cel`, also when reads of its fields fail and leave them
as they were. -/
theorem no_state_across_files (config : Config) (cel cel' : Cel) (file : String)
    (data : List Byte) :
    (trans config cel file data).out = (trans config cel' file data).out ∧
      ((trans config cel file data).panicked = none ↔
        (trans config cel' file data).panicked = none) := by
  by_cases h4 : 4 ≤ data.length
  · have hp : (transHeader cel data).pinyinr = (transHeader cel' data).pinyinr := by
      rw [transHeader_pinyinr_of_le cel data h4, transHeader_pinyinr_of_le cel' data h4]
    by_cases hw : 0x128 ≤ data.length
    · have hv : (transHeader cel data).ver = (transHeader cel' data).ver := by
        rw [transHeader_ver_of_le cel data (by omega), transHeader_ver_of_le cel' data (by omega)]
      have hz : (transHeader cel data).hzr = (transHeader cel' data).hzr := by
        rw [transHeader_hzr, transHeader_hzr cel', hv]
      have hwc : (transHeader cel data).wordc = (transHeader cel' data).wordc := by
        rw [transHeader_wordc_of_le cel data hw, transHeader_wordc_of_le cel' data hw]
      obtain ⟨_, ho, hpn⟩ := trans_eq_of_header config cel cel' file data hp hwc hz
      exact ⟨ho, by rw [hpn]⟩
    · refine ⟨?_, ?_⟩
      · rw [(trans_short config cel file data (by omega)).2,
          (trans_short config cel' file data (by omega)).2]
      · rw [trans_panicked_iff, trans_panicked_iff, hp]
  · refine ⟨?_, ?_⟩
    · rw [(trans_short config cel file data (by omega)).2,
        (trans_short config cel' file data (by omega)).2]
    · rw [trans_panicked_iff, trans_panicked_iff]
      simp only [List.length_drop]
      omega

/-- C14: on a hanzi-length mismatch at entry `k` the group's iteration leaves the
file exactly after the hanzi bytes of entry `k`: the 12 trailing bytes of entry `k` and
the entries `k+1..n-1` are not consumed, and the next iteration of the outer loop
starts there, reading its entry count from the first two of those trailing bytes. -/
theorem cursor_after_mismatch (dict : Dict) (g : WordGroup) (rest : List Byte) (k m : Nat)
    (hs : g.Sized) (hk : k < g.words.length)
    (hgood : ∀ w ∈ g.words.take k, (decode w.hanzi).length = g.indexes.length)
    (hbad : (decode (g.words.get ⟨k, hk⟩).hanzi).length ≠ g.indexes.length) :
    (group dict (g.bytes ++ rest)).2.2 =
        (g.words.get ⟨k, hk⟩).tail ++ ((g.words.drop (k + 1)).flatMap WordEntry.bytes ++ rest) ∧
      groups dict (m + 2) none (g.bytes ++ rest) =
        ((g.records dict).take k ::
          (groups dict (m + 1) none ((g.words.get ⟨k, hk⟩).tail ++
            ((g.words.drop (k + 1)).flatMap WordEntry.bytes ++ rest))).1,
         (groups dict (m + 1) none ((g.words.get ⟨k, hk⟩).tail ++
            ((g.words.drop (k + 1)).flatMap WordEntry.bytes ++ rest))).2) ∧
      (read 2 ((g.words.get ⟨k, hk⟩).tail ++
          ((g.words.drop (k + 1)).flatMap WordEntry.bytes ++ rest))).1 =
        .ok (le ((g.words.get ⟨k, hk⟩).tail.take 2)) := by
  have hg := group_mismatch_split dict g _ _ _ rest hs (words_split g k hk) hgood hbad
  have ht : (g.words.get ⟨k, hk⟩).tail.length = 12 :=
    (hs.2.2.2 _ (List.get_mem _ _ _)).2
  refine ⟨by rw [hg], ?_, ?_⟩
  · rw [groups_succ, hg]
    simp [WordGroup.records, List.map_take]
  · have h2 : 2 ≤ ((g.words.get ⟨k, hk⟩).tail ++
        ((g.words.drop (k + 1)).flatMap WordEntry.bytes ++ rest)).length := by
      rw [List.length_append, ht]; omega
    rw [read_of_le 2 _ h2, List.take_append_of_le_length (by rw [ht]; omega)]

/-- In `anomalousGroup` the mismatch is at entry 1: after the iteration the file is 30
bytes into the group, at the 12 trailing bytes of entry 1. -/
theorem cursor_after_mismatch_witness :
    (group (tableDict twoTable) (anomalousGroup.bytes ++ [])).2.2 =
      anomalousGroup.bytes.drop 30 :=
  (cursor_after_mismatch (tableDict twoTable) anomalousGroup [] 1 0 (by decide) (by decide)
    (by decide) (by decide)).1.trans (by decide)

/-- C16, as stated, fails: for `selfFile` stored as `in.txt`, whose output path is its
own path, the flag changes the number of records: with the flag the first line is
9795 bytes long and overwrites the second group before it is read, without the flag
it is 4 bytes long and the second group is read as it was. -/
theorem flag_changes_records :
    (trans ⟨"", true⟩ celZero "in.txt" selfFile).trace =
        [[⟨"你", String.mk (aChars 9790)⟩], []] ∧
      (trans ⟨"", false⟩ celZero "in.txt" selfFile).trace =
        [[⟨"你", String.mk (aChars 9790)⟩], [⟨"你", String.mk (aChars 9790)⟩]] := by
  refine ⟨?_, ?_⟩
  · rw [(trans_selfFile _).1, selfFile_flag_trace, selfFile_record]
  · rw [(trans_selfFile _).1, selfFile_plain_trace, selfFile_record]

/-- C16, amended: the with-pinyin flag selects only the rendering of a record: for
every file whose output path is not its own path, the records written, their number,
order and hanzi text, and the panic are the same for both values of the flag; with the
flag each line is the hanzi, a tab, the reading of the group and a newline, without it
the hanzi and a newline. -/
theorem flag_selects_rendering (input input' : String) (cel : Cel) (file : String)
    (data : List Byte) (hne : withSuffix file ".txt" ≠ file) :
    (trans ⟨input, true⟩ cel file data).trace = (trans ⟨input', false⟩ cel file data).trace ∧
      (trans ⟨input, true⟩ cel file data).panicked =
        (trans ⟨input', false⟩ cel file data).panicked ∧
      (trans ⟨input, true⟩ cel file data).out =
        String.join ((trans ⟨input, true⟩ cel file data).trace.flatten.map fun e =>
          e.hz ++ "\t" ++ e.pinyin ++ "\n") ∧
      (trans ⟨input', false⟩ cel file data).out =
        String.join ((trans ⟨input, true⟩ cel file data).trace.flatten.map fun e =>
          e.hz ++ "\n") := by
  obtain ⟨ht, hp⟩ := trans_trace_config ⟨input, true⟩ ⟨input', false⟩ cel file data hne
  have e1 : Emit.text true = fun e => e.hz ++ "\t" ++ e.pinyin ++ "\n" := by
    funext e; simp [Emit.text]
  have e2 : Emit.text false = fun e => e.hz ++ "\n" := by
    funext e; simp [Emit.text]
  refine ⟨ht, hp, ?_, ?_⟩
  · rw [trans_out_eq, e1]
  · rw [trans_out_eq, ← ht, e2]

/-- The file `anomalousFile`, stored as `anomalous.scel`: one record with and
without the flag, rendered with and without the reading. -/
theorem flag_selects_rendering_witness :
    (trans ⟨"", true⟩ celZero "anomalous.scel" anomalousFile).trace =
        (trans ⟨"", false⟩ celZero "anomalous.scel" anomalousFile).trace ∧
      (trans ⟨"", false⟩ celZero "anomalous.scel" anomalousFile).out = "你好\n" := by
  obtain ⟨h1, _, _, h4⟩ := flag_selects_rendering "" "" celZero "anomalous.scel" anomalousFile
    (by decide)
  have h := trans_container ⟨"", true⟩ celZero "anomalous.scel" 0x1540 0 2 2 twoTable 0x2628
    (anomalousGroup.bytes ++ fixtureGroup.bytes) (by decide) (by decide) (by decide)
    (by decide) (by decide) (by decide) (by decide) (by decide) (by decide) (by decide)
    (by decide) (by decide)
  refine ⟨h1, ?_⟩
  rw [h4]
  have ht : (trans ⟨"", true⟩ celZero "anomalous.scel" anomalousFile).trace =
      (groups (tableDict twoTable) (2 : Int).toNat none
        (anomalousGroup.bytes ++ fixtureGroup.bytes)).1 := h.1
  rw [ht]
  decide

/-- C15, as stated, fails: `anomalousFile` and `craftedFile` differ only in the 12
bytes after the hanzi string of entry 1 of their first group, the entry that does not
match; the next iteration of the outer loop reads these bytes as the start of a group,
and `craftedFile` yields one record more. -/
theorem tail_of_mismatch_interpreted :
    anomalousGroup.content = craftedGroup.content ∧
      (trans ⟨"", true⟩ celZero "anomalous.scel" anomalousFile).out = "你好\tni'hao\n" ∧
      (trans ⟨"", true⟩ celZero "crafted.scel" craftedFile).out = "你好\tni'hao\n你\tni\n" := by
  have h := trans_container ⟨"", true⟩ celZero "anomalous.scel" 0x1540 0 2 2 twoTable 0x2628
    (anomalousGroup.bytes ++ fixtureGroup.bytes) (by decide) (by decide) (by decide)
    (by decide) (by decide) (by decide) (by decide) (by decide) (by decide) (by decide)
    (by decide) (by decide)
  have h' := trans_container ⟨"", true⟩ celZero "crafted.scel" 0x1540 0 2 2 twoTable 0x2628
    (craftedGroup.bytes ++ fixtureGroup.bytes) (by decide) (by decide) (by decide)
    (by decide) (by decide) (by decide) (by decide) (by decide) (by decide) (by decide)
    (by decide) (by decide)
  exact ⟨by decide, h.2.1.trans (by decide), h'.2.1.trans (by decide)⟩

/-- C15, amended: for any two well-formed files, in which every hanzi string has the
expected character count and whose output paths are not their own paths, that differ
only in the 12 bytes after the hanzi strings of their word entries, `trans` writes
identical text; and every entry that is written takes the loop exactly `2 + L + 12`
bytes further on, whatever those 12 bytes hold. -/
theorem tails_not_interpreted (config : Config) (cel : Cel) (file file' : String)
    (data data' : List Byte)
    (table : List PinyinEntry) (gs gs' : List WordGroup)
    (h : Laid data table gs) (h' : Laid data' table gs')
    (hne : withSuffix file ".txt" ≠ file) (hne' : withSuffix file' ".txt" ≠ file')
    (hc : gs.map WordGroup.content = gs'.map WordGroup.content) :
    (trans config cel file data).out = (trans config cel file' data').out ∧
      ∀ (w : WordEntry) (pinyin : String) (n : Nat) (rest : List Byte),
        w.hanzi.length < 65536 → w.tail.length = 12 →
        entries pinyin (decode w.hanzi).length (n + 1) (w.bytes ++ rest) =
            (⟨decode w.hanzi, pinyin⟩ :: (entries pinyin (decode w.hanzi).length n rest).1,
              (entries pinyin (decode w.hanzi).length n rest).2) ∧
          (w.bytes ++ rest).drop (2 + w.hanzi.length + 12) = rest := by
  refine ⟨?_, ?_⟩
  · rw [trans_out_eq, trans_out_eq config cel file' data',
      trans_laid config cel file data table gs h hne,
      trans_laid config cel file' data' table gs' h' hne', map_records_eq_of_content _ gs gs' hc]
  · intro w pinyin n rest hl ht
    refine ⟨entries_match pinyin _ n w rest hl ht rfl, ?_⟩
    have hb : w.bytes.length = 2 + w.hanzi.length + 12 := by
      simp [WordEntry.bytes, encBstr, length_encLE, ht]
      omega
    rw [← hb, List.drop_left]

/-- The minimal fixture, stored as `fixture.scel`, and the same container with other
bytes after the hanzi string, stored as `other.scel`, yield the same text. -/
theorem tails_not_interpreted_witness :
    (trans ⟨"", true⟩ celZero "fixture.scel"
        (container 0x1540 0 ([fixtureGroup].length) (tableBytes fixtureTable.length fixtureTable)
          0x2628 ([fixtureGroup].flatMap WordGroup.bytes))).out =
      (trans ⟨"", true⟩ celZero "other.scel"
        (container 0x1540 0 ([fixtureGroupB].length) (tableBytes fixtureTable.length fixtureTable)
          0x2628 ([fixtureGroupB].flatMap WordGroup.bytes))).out :=
  (tails_not_interpreted ⟨"", true⟩ celZero "fixture.scel" "other.scel" _ _ fixtureTable [fixtureGroup] [fixtureGroupB]
    (container_laid 0x1540 0 fixtureTable [fixtureGroup] 0x2628 (by decide) (by decide)
      (by decide) (by decide) (by decide) (by decide) (by decide) (by decide) (by decide)
      (by decide))
    (container_laid 0x1540 0 fixtureTable [fixtureGroupB] 0x2628 (by decide) (by decide)
      (by decide) (by decide) (by decide) (by decide) (by decide) (by decide) (by decide)
      (by decide))
    (by decide) (by decide) (by decide)).1

/-- C17: header text fields are NUL-trimmed and only that: `trim(s)` is the longest
prefix of `s` that does not end in U+0000 (so `s` is `trim(s)` followed only by
U+0000, interior U+0000 stay, and `trim` is idempotent); `reads` returns `trim` of the
decoded window of `len` bytes at `offset`; the string `bstr` returns is the decoding
itself, not trimmed. -/
theorem trim_only_trailing_nuls (s : String) (file bs rest : List Byte) (offset len : Nat)
    (hwin : len ≤ (file.drop offset).length) (hbs : bs.length < 65536) :
    (∃ k, s.data = (trim s).data ++ List.replicate k nul) ∧
      (trim s).data.getLast? ≠ some nul ∧
      (∀ t : List Char, t <+: s.data → t.getLast? ≠ some nul →
        t.length ≤ (trim s).data.length) ∧
      trim (trim s) = trim s ∧
      (reads file offset len).1 = trim (decode ((file.drop offset).take len)) ∧
      (bstr (encBstr bs ++ rest)).1 = decode bs := by
  refine ⟨rdropWhile_append_replicate s.data, rdropWhile_getLast s.data,
    fun t ht hl => rdropWhile_longest s.data t ht hl, ?_, ?_, ?_⟩
  · simp only [trim, nul]
    rw [List.rdropWhile_idempotent]
  · simp only [reads]
    rw [readBytes_of_le len _ hwin]
  · rw [bstr_encBstr bs rest hbs]

/-- The window U+4F60 U+0000 is read as the one character U+4F60 by `reads` and as
both characters by `bstr`; trimming keeps the interior U+0000 of a string. -/
theorem trim_only_trailing_nuls_witness :
    trim "a\x00b\x00\x00" = "a\x00b" ∧
      (reads [7, 0x60, 0x4f, 0, 0, 9] 1 4).1 = "你" ∧
      (bstr (encBstr [0x60, 0x4f, 0, 0] ++ [9])).1 = "你\x00" := by
  obtain ⟨_, _, _, _, h5, h6⟩ := trim_only_trailing_nuls "a\x00b\x00\x00"
    [7, 0x60, 0x4f, 0, 0, 9] [0x60, 0x4f, 0, 0] [9] 1 4 (by decide) (by decide)
  exact ⟨by decide, h5.trans (by decide), h6.trans (by decide)⟩

/-- C18, as stated, fails: for an input path whose extension already is `.txt` the
output path is the input path itself. -/
theorem withSuffix_same_path : withSuffix "a.txt" ".txt" = "a.txt" := by
  decide

/-- C18, amended: for every input path `fn`, `withSuffix(fn, ".txt")` is `fn` with its
extension (the suffix starting at the last `.` of the final path element, empty if
there is none) replaced by `.txt`: the directory part is unchanged, the result ends in
`.txt`, and the result differs from the input path exactly when the extension of the
input is not `.txt` already. -/
theorem withSuffix_txt (fn : String) :
    ∃ stem : List Char, fn.data = stem ++ (Ext fn).data ∧
      (withSuffix fn ".txt").data = stem ++ ".txt".data ∧
      (((Ext fn).data = [] ∧ ∀ pre post, fn.data = pre ++ '.' :: post → '/' ∈ post) ∨
        ∃ e, (Ext fn).data = '.' :: e ∧ '.' ∉ e ∧ '/' ∉ e) ∧
      dirPart (withSuffix fn ".txt") = dirPart fn ∧
      (withSuffix fn ".txt" ≠ fn ↔ Ext fn ≠ ".txt") := by
  obtain ⟨stem, hst, hext⟩ := Ext_spec fn
  have hw : (withSuffix fn ".txt").data = stem ++ ".txt".data := by
    simp [withSuffix, TrimSuffix_data fn (Ext fn) stem hst]
  have hnos : ∀ c ∈ (Ext fn).data, (c != '/') = true := by
    rcases hext with ⟨h0, _⟩ | ⟨e, he, _, hs⟩
    · rw [h0]; simp
    · rw [he]
      intro c hc
      rcases List.mem_cons.mp hc with rfl | hc
      · decide
      · simp only [bne_iff_ne, ne_eq]
        intro h
        exact hs (h ▸ hc)
  refine ⟨stem, hst, hw, hext, ?_, ?_⟩
  · unfold dirPart
    rw [hw, rdropWhile_append_of_all _ stem _ (by decide)]
    conv_rhs => rw [hst]
    rw [rdropWhile_append_of_all _ stem _ hnos]
  · rw [not_iff_not, String.ext_iff, String.ext_iff, hw]
    conv_lhs => rw [hst]
    rw [List.append_right_inj]
    exact eq_comm

/-- The extension of `dir.d/name.scel` is `.scel`: the output path is
`dir.d/name.txt`, in the same directory and different from the input. -/
theorem withSuffix_txt_witness :
    withSuffix "dir.d/name.scel" ".txt" = "dir.d/name.txt" ∧
      withSuffix "dir.d/name.scel" ".txt" ≠ "dir.d/name.scel" := by
  obtain ⟨_, _, _, _, _, h⟩ := withSuffix_txt "dir.d/name.scel"
  exact ⟨by decide, h.mpr (by decide)⟩

/-- C19: on a stream that holds the byte count `c` and `2 * (c / 2)` bytes after it,
`pinyins` reads `c / 2` indexes, returns the expected length `c / 2`, and leaves the
file exactly `2 + 2 * (c / 2)` bytes further on; this is `2 + c`, the whole declared
index sequence, exactly when `c` is even: an odd `c` leaves one declared byte
unconsumed. -/
theorem pinyins_reads_half (scel : List Byte) (dict : Dict) (h2 : 2 ≤ scel.length)
    (hb : 2 * (le (scel.take 2) / 2) ≤ (scel.drop 2).length) :
    pinyins scel dict =
        ((pinyin dict (u16s ((scel.drop 2).take (2 * (le (scel.take 2) / 2)))),
          le (scel.take 2) / 2), scel.drop (2 + 2 * (le (scel.take 2) / 2))) ∧
      (u16s ((scel.drop 2).take (2 * (le (scel.take 2) / 2)))).length = le (scel.take 2) / 2 ∧
      (2 + 2 * (le (scel.take 2) / 2) = 2 + le (scel.take 2) ↔ le (scel.take 2) % 2 = 0) ∧
      (le (scel.take 2) % 2 = 1 → 2 + 2 * (le (scel.take 2) / 2) + 1 = 2 + le (scel.take 2)) := by
  refine ⟨?_, ?_, ?_, ?_⟩
  · unfold pinyins
    rw [read_of_le 2 scel h2]
    simp only [assigned]
    unfold readU16s
    rw [readFull_of_le _ _ hb]
    simp only [List.drop_drop]
  · apply length_u16s_even
    rw [List.length_take]
    omega
  · omega
  · omega

/-- The byte count 3 is odd: one index is read, the expected length is 1, and the
file is left after 4 bytes; the third declared byte is still there. -/
theorem pinyins_reads_half_witness :
    pinyins [3, 0, 1, 0, 9, 8] (tableDict fixtureTable) = (("ni", 1), [9, 8]) :=
  (pinyins_reads_half [3, 0, 1, 0, 9, 8] (tableDict fixtureTable) (by decide)
    (by decide)).1.trans (by decide)

end Scel
